import Mathlib

/-!
Verification development for the `react-headless-formatter` core:
a shallow embedding in Lean 4 of the hand-rolled HTML-like tokenizer
(`src/helpers/tokenizer.ts`) and of the formatting walker
(`src/helpers/format.ts`), together with theorems settling the frozen
claims about them.

Strings are modelled as `List Char`; the scanner's mutable `offset`
cursor and `tags` stack are threaded explicitly; the unbounded
`for (;;)` / `while` loops are modelled with an explicit fuel parameter
(`…Res.out` meaning "fuel exhausted"), since the source loops are not
structurally terminating.  JavaScript-specific behaviours are modelled
faithfully where they matter:

* `RegExp.test(undefined)` coerces `undefined` to the string
  `"undefined"`, which matches `/[a-z0-9._-]/i`, so at end of input
  `isValidTag` reports `true` (`tagNameTest none = true` below);
* `''.includes(undefined)` is `false`, so a missing quote character at
  end of input takes the unquoted-value branch;
* assigning to an existing object key keeps its insertion position but
  overwrites the value (`jsSet` below), and `Object.entries` lists keys
  in insertion order;
* `String.prototype.lastIndexOf` returns the greatest matching index
  (`lastIdxOf` below returns `none` for JS `-1`).

The `\s` character class is modelled by its ASCII members (space, tab,
newline, carriage return, vertical tab, form feed); the Unicode space
code points also matched by JavaScript's `\s` play no role in any claim.
-/

namespace RHF

/-- Characters of the input string (JS strings are indexed by position). -/
abbrev Str := List Char

/-- `Token = PlainTextToken | TagToken` from `tokenizer.ts`.  A plain text
token is a string; a tag token carries the canonicalized tag name, the
attributes object (insertion-ordered key/value pairs) and the children. -/
inductive Token where
  | text (s : Str)
  | tag (name : Str) (attrs : List (Str × Str)) (children : List Token)
  deriving Repr

/-- ASCII members of the `SPACE = /[\s\t\n]/` class. -/
def isSpaceChar (c : Char) : Bool :=
  c == ' ' || c == '\t' || c == '\n' || c == '\r' || c == '\x0b' || c == '\x0c'

/-- `TAG_NAME_ALLOWED_CHARS = /[a-z0-9._-]/i`. -/
def isTagNameChar (c : Char) : Bool :=
  c.isAlpha || c.isDigit || c == '.' || c == '_' || c == '-'

/-- `ATTR_NAME_ALLOWED_CHARS = /[^\s\t\n=/>]/i`. -/
def isAttrNameChar (c : Char) : Bool :=
  !(isSpaceChar c || c == '=' || c == '/' || c == '>')

/-- `SPACE_AND_CLOSING_TAGS = /[\s\t\n/>]/`. -/
def isSpaceOrClosing (c : Char) : Bool :=
  isSpaceChar c || c == '/' || c == '>'

/-- `ATTR_NAME_ALLOWED_CHARS_AND_CLOSING_TAGS = /[^\s\t\n=]/i`. -/
def isAttrNameOrClosingChar (c : Char) : Bool :=
  !(isSpaceChar c || c == '=')

/-- `TAG_NAME_ALLOWED_CHARS.test(text[i])` as executed by `isValidTag`:
when the index is past the end of the string, `text[i]` is `undefined`,
which JavaScript's `test` coerces to the string `"undefined"` — and that
string matches `/[a-z0-9._-]/i`. -/
def tagNameTest : Option Char → Bool
  | some c => isTagNameChar c
  | none => true

/-- `text[i]` — `none` models JavaScript's `undefined` out of range. -/
def charAt (txt : Str) (off : Nat) : Option Char :=
  (txt.drop off).head?

/-- Number of leading characters of `l` satisfying `p` (the scan length of
the `skip` loop when run on `l`). -/
def skipList (p : Char → Bool) : Str → Nat
  | [] => 0
  | c :: cs => if p c then skipList p cs + 1 else 0

/-- `skip(chars)` of the tokenizer: advance the cursor while the current
character satisfies `p` (and the cursor is inside the text).
`skipTo(chars)` is `skipW txt (fun c => !p c)`. -/
def skipW (txt : Str) (p : Char → Bool) (off : Nat) : Nat :=
  off + skipList p (txt.drop off)

/-- `text.substring(a, b)` for the in-range, ordered uses in the tokenizer. -/
def subStr (txt : Str) (a b : Nat) : Str :=
  (txt.take b).drop a

/-- `nextStringIs(word)`: `text.indexOf(word, offset) === offset`, i.e.
`word` occurs at position `offset` (all uses have `word ≠ ""`). -/
def nextIs (txt : Str) (off : Nat) (w : Str) : Bool :=
  decide ((txt.drop off).take w.length = w)

/-- `tags.lastIndexOf(name)`: greatest index holding `name`, `none` for
JS `-1`. -/
def lastIdxOf : List Str → Str → Option Nat
  | [], _ => none
  | a :: rest, x =>
    match lastIdxOf rest x with
    | some i => some (i + 1)
    | none => if a = x then some 0 else none

/-- The `while (this.tags.length > tagIndex) { this.tags.pop(); }` loop of
`parseContent`, with fuel `tags.length` (one pop per iteration suffices). -/
def popLoop : Nat → List Str → Nat → List Str
  | 0, l, _ => l
  | f + 1, l, i => if i < l.length then popLoop f l.dropLast i else l

/-- `attrs[name] = value` on a JavaScript object: overwrite in place if the
key exists (keeping its insertion position), append otherwise. -/
def jsSet : List (Str × Str) → Str → Str → List (Str × Str)
  | [], n, v => [(n, v)]
  | (k, w) :: rest, n, v =>
    if k = n then (k, v) :: rest else (k, w) :: jsSet rest n v

/-- JavaScript object property read `obj[key]` on the association list. -/
def lookupA {α : Type} : List (Str × α) → Str → Option α
  | [], _ => none
  | (k, v) :: rest, n => if k = n then some v else lookupA rest n

/-- `parseTagName()`: skip to the first tag-name character, read the run of
tag-name characters, return it upper-cased together with the new cursor. -/
def parseTagName (txt : Str) (off : Nat) : Str × Nat :=
  let o1 := skipW txt (fun c => !isTagNameChar c) off
  let o2 := skipW txt isTagNameChar o1
  ((subStr txt o1 o2).map Char.toUpper, o2)

/-- Result of `parseAttribute()`: either the `throw new Error('Malformed
attribute')` (carrying the cursor at the throw) or a normal return of the
optional name/value pair and the new cursor. -/
inductive AttrRes where
  | thrown (off : Nat)
  | ok (res : Option (Str × Str)) (off : Nat)
  deriving Repr

/-- `parseAttribute()`.  Reads one attribute name and optional value; when
the cursor does not move over a name character it advances one character
and returns nothing ("skip it to avoid endless-loop"); an unterminated
quoted value at end of input throws. -/
def parseAttribute (txt : Str) (off : Nat) : AttrRes :=
  let o1 := skipW txt isAttrNameChar off
  if o1 = off then .ok none (off + 1)
  else
    let name := subStr txt off o1
    let o2 := skipW txt isSpaceChar o1
    if nextIs txt o2 ['='] then
      let o3 := o2 + 1
      let o4 := skipW txt isSpaceChar o3
      let unqEnd := skipW txt (fun c => !isSpaceOrClosing c) o4
      match charAt txt o4 with
      | some q =>
        if q = '\'' ∨ q = '"' then
          let o5 := o4 + 1
          let o6 := skipW txt (fun c => !(c == q)) o5
          if o6 = txt.length then .thrown o6
          else .ok (some (name, subStr txt o5 o6)) (o6 + 1)
        else .ok (some (name, subStr txt o4 unqEnd)) unqEnd
      | none => .ok (some (name, subStr txt o4 unqEnd)) unqEnd
    else .ok (some (name, [])) o2

/-- Result of `parseAttributes()`: fuel exhaustion, a propagated throw, or
the attributes object, the self-closed flag and the new cursor. -/
inductive ARes where
  | out
  | thrown (off : Nat)
  | ok (attrs : List (Str × Str)) (selfClosed : Bool) (off : Nat)
  deriving Repr

/-- `parseAttributes()`: the `for (;;)` attribute-scanning loop, one fuel
unit per iteration. -/
def parseAttributes (txt : Str) : Nat → Nat → List (Str × Str) → ARes
  | 0, _, _ => .out
  | fuel + 1, off, attrs =>
    let o1 := skipW txt (fun c => !isAttrNameOrClosingChar c) off
    if nextIs txt o1 ['>'] then .ok attrs false (o1 + 1)
    else if nextIs txt o1 ['/', '>'] then .ok attrs true (o1 + 2)
    else
      match parseAttribute txt o1 with
      | .thrown o => .thrown o
      | .ok none o2 => parseAttributes txt fuel o2 attrs
      | .ok (some (n, v)) o2 => parseAttributes txt fuel o2 (jsSet attrs n v)

/-- Result of `parseTag()`: fuel exhaustion or the optional produced token
(`none` when the `catch` swallowed a parse failure) with cursor and stack. -/
inductive TRes where
  | out
  | ok (tok : Option Token) (off : Nat) (tags : List Str)
  deriving Repr

/-- Result of `parseContent()`: fuel exhaustion or the content list with the
final cursor and stack. -/
inductive CRes where
  | out
  | ok (content : List Token) (off : Nat) (tags : List Str)
  deriving Repr

mutual
/-- `parseTag()`: read the name, push it, parse the attributes, then (unless
self-closed) recursively parse the content; the `try { … } catch { }`
converts an attribute-parsing throw into "no token", leaving the cursor
where the failure left it and the pushed name on the stack. -/
def parseTag (txt : Str) : Nat → Nat → List Str → TRes
  | 0, _, _ => .out
  | fuel + 1, off, tags =>
    let nm := (parseTagName txt off).1
    let o1 := (parseTagName txt off).2
    let tags1 := tags ++ [nm]
    match parseAttributes txt fuel o1 [] with
    | .out => .out
    | .thrown o => .ok none o tags1
    | .ok attrs selfClosed o2 =>
      if selfClosed then .ok (some (.tag nm attrs [])) o2 tags1
      else
        match parseContent txt fuel o2 o2 tags1 [] with
        | .out => .out
        | .ok children o3 tags2 => .ok (some (.tag nm attrs children)) o3 tags2

/-- `parseContent()`: the main scanning loop.  `so` is `startOffset` (start
of the pending plain-text run), `off` the cursor, one fuel unit per loop
iteration.  Branches, in source order: closing-tag candidate `</`,
opening-tag candidate `<`, regular character; after the loop the pending
text (if any) is flushed. -/
def parseContent (txt : Str) : Nat → Nat → Nat → List Str → List Token → CRes
  | 0, _, _, _, _ => .out
  | fuel + 1, so, off, tags, content =>
    if off < txt.length then
      if nextIs txt off ['<', '/'] then
        -- isValidTag(CLOSING_TAG_START) examines the char after "</" and
        -- advances the cursor by 2 (valid) or 1 (invalid)
        let valid := tagNameTest (charAt txt (off + 2))
        let offV := if valid then off + 2 else off + 1
        let content1 :=
          if so < off then content ++ [Token.text (subStr txt so off)] else content
        let nm := (parseTagName txt offV).1
        let oN := (parseTagName txt offV).2
        let oE := skipW txt (fun c => !(c == '>')) oN + 1
        if valid then
          match lastIdxOf tags nm with
          | none => parseContent txt fuel oE oE tags content1
          | some i => .ok content1 oE (popLoop tags.length tags i)
        else parseContent txt fuel oE oE tags content1
      else if nextIs txt off ['<'] then
        let valid := tagNameTest (charAt txt (off + 1))
        if valid then
          let content1 :=
            if so < off then content ++ [Token.text (subStr txt so off)] else content
          match parseTag txt fuel (off + 1) tags with
          | .out => .out
          | .ok tokOpt o2 tags2 =>
            parseContent txt fuel o2 o2 tags2 (content1 ++ tokOpt.toList)
        else parseContent txt fuel so (off + 1) tags content
      else parseContent txt fuel so (off + 1) tags content
    else
      .ok (if so < txt.length then content ++ [Token.text (txt.drop so)] else content)
        off tags
end

/-- Result of `parse()`: the token forest, or fuel exhaustion. -/
inductive PRes where
  | out
  | ok (tokens : List Token)
  deriving Repr

/-- `Tokenizer.parse(text)`: fresh cursor and stack, then `parseContent`. -/
def parse (txt : Str) (fuel : Nat) : PRes :=
  match parseContent txt fuel 0 0 [] [] with
  | .out => .out
  | .ok toks _ _ => .ok toks


/-! ## The formatting walker (`format.ts`, `index.ts`)

React elements are modelled by `RNode`: a string child, a `Fragment`
element with a `key` and a children array, a `'pre'` element (the
inline-styled literal-markup container) with a `key` and one child, or
`null`.  `createElement(Fragment, {key}, x)` with a single non-array `x`
is modelled as a fragment with the one-element children list, and the
nested child array of `tagTokenToString` is spliced into its fragment's
children list (React flattens nested child arrays). -/

/-- Model of `JSX.Element | null` as produced by the walker. -/
inductive RNode where
  | rstr (s : Str)
  | frag (key : Nat) (children : List RNode)
  | pre (key : Nat) (child : RNode)
  | rnull

/-- `TagData` from `index.ts`: canonical name, formatted children, attrs. -/
structure TagData where
  name : Str
  children : List RNode
  attrs : List (Str × Str)

/-- `FormatTagHandler` (hook-free form). -/
abbrev FormatTagHandler := Nat → TagData → RNode

/-- `FormatTextHandler` (hook-free form). -/
abbrev FormatTextHandler := Nat → Str → RNode

/-- `attrsToString`: `Object.entries(attrs)` in insertion order, each entry
rendered `key="value"`, joined with single spaces. -/
def attrsToString : List (Str × Str) → Str
  | [] => []
  | [(k, v)] => k ++ '=' :: '"' :: v ++ ['"']
  | (k, v) :: rest => k ++ '=' :: '"' :: v ++ '"' :: ' ' :: attrsToString rest

/-- `tagTokenToString`: literal-markup synthesis for a kept unknown tag.
The opening markup ends in `>` when there are children, in ` />` when
there are attributes but no children, and in `/>` otherwise; the closing
markup `</NAME>` is produced only when there are children (otherwise the
JS code uses the empty string `''` as that child). -/
def tagTokenToString (tag : Str) (attrs : List (Str × Str))
    (children : List RNode) (index : Nat) : RNode :=
  let attrsText := attrsToString attrs
  let content :=
    '<' :: tag ++ (if attrsText.isEmpty then [] else ' ' :: attrsText) ++
      (if !children.isEmpty then ['>']
       else if !attrsText.isEmpty then [' ', '/', '>'] else ['/', '>'])
  let openTag := RNode.pre 0 (.rstr content)
  let closeTag :=
    if !children.isEmpty then RNode.pre 2 (.rstr ('<' :: '/' :: tag ++ ['>']))
    else RNode.rstr []
  .frag index ([openTag] ++ children ++ [closeTag])

mutual
/-- `formatToken`: render one token.  A text token goes through the
plain-text handler and is wrapped in a keyed fragment; a tag token has its
children formatted first, then the handler is resolved: registry entry,
else `defaultTag`, else literal markup when `keepUnknownTags`, else a
transparent fragment around the children. -/
def formatToken (plainText : FormatTextHandler)
    (tags : List (Str × FormatTagHandler)) (defaultTag : Option FormatTagHandler)
    (keepUnknownTags : Bool) : Token → Nat → RNode
  | .text s, index => .frag index [plainText index s]
  | .tag nm attrs children, index =>
    let elems := formatChildren plainText tags defaultTag keepUnknownTags children 0
    let tagData : TagData := ⟨nm, elems, attrs⟩
    match lookupA tags nm with
    | some handler => handler index tagData
    | none =>
      match defaultTag with
      | some handler => handler index tagData
      | none =>
        if keepUnknownTags then tagTokenToString nm attrs elems index
        else .frag index elems

/-- `token.children.map((child, index) => format(…, child, index))`. -/
def formatChildren (plainText : FormatTextHandler)
    (tags : List (Str × FormatTagHandler)) (defaultTag : Option FormatTagHandler)
    (keepUnknownTags : Bool) : List Token → Nat → List RNode
  | [], _ => []
  | t :: ts, i =>
    formatToken plainText tags defaultTag keepUnknownTags t i ::
      formatChildren plainText tags defaultTag keepUnknownTags ts (i + 1)
end

/-- Top-level `format` on the parsed array, as invoked from `index.ts` with
index `0`. -/
def formatTop (plainText : FormatTextHandler)
    (tags : List (Str × FormatTagHandler)) (defaultTag : Option FormatTagHandler)
    (keepUnknownTags : Bool) (tokens : List Token) : RNode :=
  .frag 0 (formatChildren plainText tags defaultTag keepUnknownTags tokens 0)

/-- The default `textHandler` of `createTextFormat`: the text wrapped in a
keyed fragment. -/
def defaultTextHandler : FormatTextHandler := fun index s => .frag index [.rstr s]

/-- `transformTagHandlers`: re-key the caller's registry by upper-cased tag
names (later duplicates overwrite earlier ones, JS-object style). -/
def transformTagHandlers (hs : List (Str × FormatTagHandler)) :
    List (Str × FormatTagHandler) :=
  hs.foldl (fun acc kv => jsSet' acc (kv.1.map Char.toUpper) kv.2) []
where
  /-- object property assignment for handler maps (same as `jsSet`). -/
  jsSet' : List (Str × FormatTagHandler) → Str → FormatTagHandler →
      List (Str × FormatTagHandler)
    | [], n, v => [(n, v)]
    | (k, w) :: rest, n, v =>
      if k = n then (k, v) :: rest else (k, w) :: jsSet' rest n v

mutual
/-- Concatenated text content of a rendered tree (what the markup
"reproduction" claims are about). -/
def flatten : RNode → Str
  | .rstr s => s
  | .frag _ cs => flattenL cs
  | .pre _ c => flatten c
  | .rnull => []

/-- `flatten` over a children array. -/
def flattenL : List RNode → Str
  | [] => []
  | c :: cs => flatten c ++ flattenL cs
end


/-! ## Auxiliary predicates and the well-formed-input grammar

`textsOkT`/`textsOkL` state that every text token of a forest (at any
depth) is non-empty.

Well-formed inputs ("every opened tag properly closed, no stray `<`") are
modelled as serializations of source forests `SForest`: interleavings of
non-empty `<`-free text runs and tags written `<name a='v' b="w">…</name>`
or `<name …/>`, with names over the tag-name alphabet, attribute names
over the attribute-name alphabet, every attribute value quoted (single or
double) and free of its own quote character, attribute names unique per
tag, and no two adjacent text runs (adjacent runs would merge when parsed
back). -/

mutual
/-- Every text token inside `t` is a non-empty string. -/
def textsOkT : Token → Bool
  | .text s => !s.isEmpty
  | .tag _ _ children => textsOkL children

/-- Every text token inside the forest is a non-empty string. -/
def textsOkL : List Token → Bool
  | [] => true
  | t :: ts => textsOkT t && textsOkL ts
end

/-- A source attribute: name, quote style used in the input, value. -/
structure SAttr where
  name : Str
  quote : Char
  value : Str

/-- A source attribute is well formed: non-empty name over the
attribute-name alphabet, single or double quote, value free of the chosen
quote character. -/
def wfAttr (a : SAttr) : Bool :=
  !a.name.isEmpty && a.name.all isAttrNameChar &&
    (a.quote == '\'' || a.quote == '"') && a.value.all (fun c => !(c == a.quote))

mutual
/-- A source node: a text run or a tag (with its children forest). -/
inductive SNode where
  | txt (s : Str)
  | tag (name : Str) (attrs : List SAttr) (selfClosed : Bool) (children : SForest)

/-- A source forest. -/
inductive SForest where
  | nil
  | cons (n : SNode) (f : SForest)
end

/-- Whether a source node is a text run. -/
def isTxtN : SNode → Bool
  | .txt _ => true
  | .tag _ _ _ _ => false

/-- Whether a forest starts with a text run. -/
def headIsTxt : SForest → Bool
  | .nil => false
  | .cons n _ => isTxtN n

/-- Whether a forest is empty. -/
def isNilF : SForest → Bool
  | .nil => true
  | .cons _ _ => false

mutual
/-- Well-formedness of a source node (see the section comment). -/
def wfN : SNode → Bool
  | .txt s => !s.isEmpty && !s.contains '<'
  | .tag nm attrs sc ch =>
    !nm.isEmpty && nm.all isTagNameChar && attrs.all wfAttr &&
      decide (attrs.map SAttr.name).Nodup && (!sc || isNilF ch) && wfF ch

/-- Well-formedness of a source forest: each node well formed, no two
adjacent text runs. -/
def wfF : SForest → Bool
  | .nil => true
  | .cons n f => wfN n && wfF f && !(isTxtN n && headIsTxt f)
end

/-- Serialization of a source attribute list (one leading space per
attribute, value quoted with the chosen quote). -/
def serAttrs : List SAttr → Str
  | [] => []
  | a :: rest => ' ' :: a.name ++ '=' :: a.quote :: a.value ++ a.quote :: serAttrs rest

mutual
/-- Serialization of a source node (the well-formed input fragment). -/
def serN : SNode → Str
  | .txt s => s
  | .tag nm attrs sc ch =>
    '<' :: nm ++ serAttrs attrs ++
      (if sc then ['/', '>'] else '>' :: (serF ch ++ '<' :: '/' :: nm ++ ['>']))

/-- Serialization of a source forest. -/
def serF : SForest → Str
  | .nil => []
  | .cons n f => serN n ++ serF f
end

/-- The attribute object the tokenizer builds for a well-formed attribute
list: name/value pairs in source order. -/
def attrsPairs (attrs : List SAttr) : List (Str × Str) :=
  attrs.map (fun a => (a.name, a.value))

mutual
/-- The token the tokenizer produces for a well-formed source node. -/
def canonN : SNode → Token
  | .txt s => .text s
  | .tag nm attrs _ ch => .tag (nm.map Char.toUpper) (attrsPairs attrs) (canonF ch)

/-- The token forest the tokenizer produces for a well-formed source
forest. -/
def canonF : SForest → List Token
  | .nil => []
  | .cons n f => canonN n :: canonF f
end

mutual
/-- Fuel consumed by the scanning loop while processing one node. -/
def fuelN : SNode → Nat
  | .txt s => s.length
  | .tag _ attrs sc ch => (attrs.length + 1) + (if sc then 0 else fuelF ch + 1) + 2

/-- Fuel consumed while processing a forest. -/
def fuelF : SForest → Nat
  | .nil => 0
  | .cons n f => fuelN n + fuelF f
end

mutual
/-- Fuel left over in the loop's own counter after processing one node
(a tag costs the loop itself a single iteration; the rest of `fuelN` is
spent inside `parseTag`). -/
def extraN : SNode → Nat
  | .txt _ => 0
  | .tag _ attrs sc ch => (attrs.length + 1) + (if sc then 0 else fuelF ch + 1) + 1

/-- Fuel left over after processing a forest. -/
def extraF : SForest → Nat
  | .nil => 0
  | .cons n f => extraN n + extraF f
end

mutual
/-- Canonical double-quoted serialization of the literal-markup synthesis
of `canonN`: upper-case name, attributes double-quoted in source order,
childless tags rendered self-closing. -/
def serCanonN : SNode → Str
  | .txt s => s
  | .tag nm attrs _ ch =>
    '<' :: nm.map Char.toUpper ++
      (if attrs.isEmpty then []
       else ' ' :: attrsToString (attrsPairs attrs)) ++
      (match ch with
       | .nil => if attrs.isEmpty then ['/', '>'] else [' ', '/', '>']
       | .cons _ _ =>
         '>' :: serCanonF ch ++ '<' :: '/' :: nm.map Char.toUpper ++ ['>'])

/-- Canonical serialization of a formatted forest. -/
def serCanonF : SForest → Str
  | .nil => []
  | .cons n f => serCanonN n ++ serCanonF f
end

/-- Loop specification of one well-formed source node: scanning its
serialization from a clean-or-pending boundary advances the cursor past it,
may leave residue on the open-tags stack (names of self-closed and implicit
tags, harmlessly above the caller's entries), consumes `fuelN` fuel leaving
`extraN`, and — once the pending text run is flushed at the next boundary —
extends the accumulated content by exactly the node's canonical token. -/
def NodeLoopSpec (n : SNode) : Prop :=
  ∀ (txt rest : Str) (φ so off : Nat) (tags : List Str) (content : List Token),
    wfN n = true →
    txt.drop off = serN n ++ rest →
    so ≤ off →
    (so < off → isTxtN n = false) →
    ∃ (junk : List Str) (so2 : Nat) (content2 : List Token),
      parseContent txt (φ + fuelN n) so off tags content =
        parseContent txt (φ + extraN n) so2 (off + (serN n).length)
          (tags ++ junk) content2 ∧
      so2 ≤ off + (serN n).length ∧
      (so2 < off + (serN n).length → isTxtN n = true) ∧
      content2 ++ (if so2 < off + (serN n).length then
          [Token.text (subStr txt so2 (off + (serN n).length))] else []) =
        content ++ (if so < off then [Token.text (subStr txt so off)] else []) ++
          [canonN n]

/-- Loop specification of a well-formed source forest (see `NodeLoopSpec`). -/
def ForestLoopSpec (F : SForest) : Prop :=
  ∀ (txt rest : Str) (φ so off : Nat) (tags : List Str) (content : List Token),
    wfF F = true →
    txt.drop off = serF F ++ rest →
    so ≤ off →
    (so < off → headIsTxt F = false) →
    ∃ (junk : List Str) (so2 : Nat) (content2 : List Token),
      parseContent txt (φ + fuelF F) so off tags content =
        parseContent txt (φ + extraF F) so2 (off + (serF F).length)
          (tags ++ junk) content2 ∧
      so2 ≤ off + (serF F).length ∧
      content2 ++ (if so2 < off + (serF F).length then
          [Token.text (subStr txt so2 (off + (serF F).length))] else []) =
        content ++ (if so < off then [Token.text (subStr txt so off)] else []) ++
          canonF F

/-! ## Basic facts about the scanning primitives -/

/-- A concrete well-formed source forest for the round-trip witness:
`<a href='url'>some <b>bold</b> text</a>`. -/
def exForest : SForest :=
  .cons
    (.tag ("a".toList) [⟨"href".toList, '\x27', "url".toList⟩] false
      (.cons (.txt ("some ".toList))
        (.cons (.tag ("b".toList) [] false (.cons (.txt ("bold".toList)) .nil))
          (.cons (.txt (" text".toList)) .nil))))
    .nil

theorem skipList_cons_stop {p : Char → Bool} {c : Char} (v : Str)
    (h : p c = false) : skipList p (c :: v) = 0 := by
  simp [skipList, h]

theorem skipList_append {p : Char → Bool} {u : Str} (v : Str)
    (h : ∀ a ∈ u, p a = true) :
    skipList p (u ++ v) = u.length + skipList p v := by
  induction u with
  | nil => simp
  | cons c u ih =>
    have hc : p c = true := h c (by simp)
    have ih' := ih (fun a ha => h a (by simp [ha]))
    simp [skipList, hc, ih']
    omega


theorem skipList_stops {p : Char → Bool} {u : Str} {c : Char} (v : Str)
    (h : ∀ a ∈ u, p a = true) (hc : p c = false) :
    skipList p (u ++ c :: v) = u.length := by
  rw [skipList_append (c :: v) h, skipList_cons_stop v hc]
  omega

theorem drop_at {txt u v : Str} {off : Nat} (h : txt.drop off = u ++ v) :
    txt.drop (off + u.length) = v := by
  have := List.drop_drop u.length off txt
  rw [← this, h, List.drop_left]

theorem subStr_at {txt u v : Str} {off : Nat} (h : txt.drop off = u ++ v) :
    subStr txt off (off + u.length) = u := by
  unfold subStr
  rw [List.drop_take, h]
  simp [List.take_left]

theorem charAt_at {txt v : Str} {c : Char} {off : Nat}
    (h : txt.drop off = c :: v) : charAt txt off = some c := by
  simp [charAt, h]

theorem charAt_past {txt : Str} {off : Nat} (h : txt.length ≤ off) :
    charAt txt off = none := by
  simp [charAt, List.drop_eq_nil_iff.2 h]

theorem lt_length_at {txt v : Str} {c : Char} {off : Nat}
    (h : txt.drop off = c :: v) : off < txt.length := by
  by_contra hge
  rw [List.drop_eq_nil_iff.2 (by omega)] at h
  exact List.noConfusion h

theorem ge_length_iff_drop_nil {txt : Str} {off : Nat} :
    txt.drop off = [] ↔ txt.length ≤ off := List.drop_eq_nil_iff

theorem skipW_at {txt u v : Str} {p : Char → Bool} {c : Char} {off : Nat}
    (h : txt.drop off = u ++ c :: v)
    (hu : ∀ a ∈ u, p a = true) (hc : p c = false) :
    skipW txt p off = off + u.length := by
  unfold skipW
  rw [h, skipList_stops v hu hc]

theorem skipW_past {txt : Str} {p : Char → Bool} {off : Nat}
    (h : txt.length ≤ off) : skipW txt p off = off := by
  unfold skipW
  rw [List.drop_eq_nil_iff.2 h]
  simp [skipList]

theorem skipW_all {txt u : Str} {p : Char → Bool} {off : Nat}
    (h : txt.drop off = u) (hu : ∀ a ∈ u, p a = true) :
    skipW txt p off = off + u.length := by
  unfold skipW
  rw [h]
  have : u = u ++ [] := by simp
  rw [this, skipList_append [] (by simpa using hu)]
  simp [skipList]

theorem nextIs_at {txt v : Str} {off : Nat} (w : Str)
    (h : txt.drop off = w ++ v) : nextIs txt off w = true := by
  simp only [nextIs, h, decide_eq_true_eq]
  rw [List.take_left]

theorem nextIs_one_false {txt v : Str} {c d : Char} {off : Nat}
    (h : txt.drop off = c :: v) (hne : c ≠ d) :
    nextIs txt off [d] = false := by
  simp [nextIs, h, hne]

theorem nextIs_two_false_fst {txt v : Str} {c d e : Char} {off : Nat}
    (h : txt.drop off = c :: v) (hne : c ≠ d) :
    nextIs txt off [d, e] = false := by
  cases v with
  | nil => simp [nextIs, h, hne]
  | cons b v => simp [nextIs, h, hne]

theorem nextIs_two_false_snd {txt v : Str} {b c d e : Char} {off : Nat}
    (h : txt.drop off = b :: c :: v) (hne : c ≠ e) :
    nextIs txt off [d, e] = false := by
  simp [nextIs, h]
  intro _
  exact fun he => absurd he hne

theorem nextIs_past {txt : Str} {off : Nat} {w : Str} (h : txt.length ≤ off)
    (hw : w ≠ []) : nextIs txt off w = false := by
  rw [nextIs, List.drop_eq_nil_iff.2 h]
  cases w with
  | nil => exact absurd rfl hw
  | cons c w => simp

theorem drop_self_append {txt v : Str} {off : Nat} (h : txt.drop off = v) :
    txt.drop off = v ++ txt.drop (off + v.length) := by
  have h2 : txt.drop (off + v.length) = [] := by
    have : txt.length ≤ off + v.length := by
      have hlen : (txt.drop off).length = txt.length - off := List.length_drop off txt
      rw [h] at hlen
      omega
    exact List.drop_eq_nil_iff.2 this
  rw [h2, h, List.append_nil]

/-! ## Validation of the embedding against the repository test suite

Each of the following reproduces a characterization test of
`tests/tokenizer.spec.ts` by kernel evaluation of the embedding. -/

theorem tokSpec_empty : parse ("".toList) 10 = .ok [] := by rfl

theorem tokSpec_simple :
    parse ("Non-formatted string".toList) 50 =
      .ok [.text ("Non-formatted string".toList)] := by rfl

theorem tokSpec_tags :
    parse ("String with <foobar>some tag</foobar> without <b>Nesting</b>".toList) 100 =
      .ok [.text ("String with ".toList),
        .tag ("FOOBAR".toList) [] [.text ("some tag".toList)],
        .text (" without ".toList),
        .tag ("B".toList) [] [.text ("Nesting".toList)]] := by rfl

theorem tokSpec_attrs :
    parse ("String with <foobar attr1=123 attr2=foo bar>some tag</foobar>.".toList) 100 =
      .ok [.text ("String with ".toList),
        .tag ("FOOBAR".toList)
          [("attr1".toList, "123".toList), ("attr2".toList, "foo".toList),
            ("bar".toList, [])]
          [.text ("some tag".toList)],
        .text (".".toList)] := by rfl

theorem tokSpec_nested :
    parse ("<a attr1=\"123\">some <b attr2=\"xyz\"><i>nested</i>tag</b></a>.".toList) 100 =
      .ok [.tag ("A".toList) [("attr1".toList, "123".toList)]
          [.text ("some ".toList),
            .tag ("B".toList) [("attr2".toList, "xyz".toList)]
              [.tag ("I".toList) [] [.text ("nested".toList)], .text ("tag".toList)]],
        .text (".".toList)] := by rfl

theorem tokSpec_spaceAfterLt :
    parse ("< tagName>content</ tagName>".toList) 100 =
      .ok [.text ("< tagName>content".toList)] := by rfl

theorem tokSpec_autoClose :
    parse ("<tagName>content <a>link</tagName>".toList) 100 =
      .ok [.tag ("TAGNAME".toList) []
        [.text ("content ".toList), .tag ("A".toList) [] [.text ("link".toList)]]] := by rfl

theorem tokSpec_selfClosing :
    parse ("a <br /> z".toList) 50 =
      .ok [.text ("a ".toList), .tag ("BR".toList) [] [], .text (" z".toList)] := by rfl

theorem tokSpec_singleQuotes :
    parse ("<tagName attr='value' with-quote='has\"quote'>content</tagName>".toList) 100 =
      .ok [.tag ("TAGNAME".toList)
        [("attr".toList, "value".toList), ("with-quote".toList, "has\"quote".toList)]
        [.text ("content".toList)]] := by rfl

theorem tokSpec_malformedAttr :
    parse ("String with <foobar attr1=\"123></foobar>.".toList) 100 =
      .ok [.text ("String with ".toList)] := by rfl

/-! ## C1: divergence of the attribute loop at end of input -/

/-- Once the cursor is at or past the end of the input, every iteration of
the attribute loop consumes fuel, returns no attribute, and pushes the
cursor one further: the loop never terminates, whatever the fuel. -/
theorem parseAttributes_past {txt : Str} :
    ∀ (f off : Nat) (attrs : List (Str × Str)), txt.length ≤ off →
      parseAttributes txt f off attrs = .out := by
  intro f
  induction f with
  | zero => intro off attrs h; rfl
  | succ f ih =>
    intro off attrs h
    have hskip : skipW txt (fun c => !isAttrNameOrClosingChar c) off = off :=
      skipW_past h
    have h1 : nextIs txt off ['>'] = false := nextIs_past h (by simp)
    have h2 : nextIs txt off ['/', '>'] = false := nextIs_past h (by simp)
    have hattr : parseAttribute txt off = .ok none (off + 1) := by
      unfold parseAttribute
      rw [skipW_past h]
      simp
    simp only [parseAttributes, hskip, h1, h2, hattr, Bool.false_eq_true,
      if_false]
    exact ih (off + 1) attrs (by omega)

/-- A tag whose name scan already reaches end of input hands the attribute
loop a cursor past the end: `parseTag` then exhausts any fuel. -/
theorem parseTag_past {txt : Str} {off : Nat} (f : Nat) (tags : List Str)
    (h : txt.length ≤ (parseTagName txt off).2) :
    parseTag txt f off tags = .out := by
  cases f with
  | zero => rfl
  | succ f =>
    have hA := @parseAttributes_past txt f (parseTagName txt off).2 [] h
    simp only [parseTag, hA]

/-- C1: the claim states that `Tokenizer.parse` terminates for every finite
input, in particular that the attribute-scanning loop terminates when end
of input is reached inside an open tag.  This is false of the code: on the
input `"<a"` the opening tag is entered (`<` followed by the tag-name
character `a`), the name scan leaves the cursor at the end of the input,
and the attribute loop then runs forever — `parseAttribute` returns no
attribute while pushing the cursor one character further on every
iteration, and neither `>` nor `/>` can ever be found.  In the fuel
model: no amount of fuel makes `parse "<a"` return. -/
theorem c1_parse_nontermination (fuel : Nat) : parse ['<', 'a'] fuel = .out := by
  cases fuel with
  | zero => rfl
  | succ f =>
    have hT : parseTag ['<', 'a'] f 1 [] = .out := by
      apply parseTag_past
      decide
    unfold parse
    simp only [parseContent, hT]
    simp +decide [nextIs, charAt, tagNameTest, isTagNameChar]

/-! ## Scanning over plain text -/

/-- Scanning a run of non-`<` characters only advances the cursor: one fuel
unit and one position per character, leaving `startOffset`, the stack and
the accumulated content untouched. -/
theorem parseContent_scan {txt : Str} :
    ∀ (u : Str) {v : Str} (f so off : Nat) (tags : List Str)
      (content : List Token),
      txt.drop off = u ++ v → (∀ c ∈ u, c ≠ '<') →
      parseContent txt (f + u.length) so off tags content =
        parseContent txt f so (off + u.length) tags content := by
  intro u
  induction u with
  | nil => intro v f so off tags content h hu; simp
  | cons c u ih =>
    intro v f so off tags content h hu
    have hc : c ≠ '<' := hu c (by simp)
    have hlt : off < txt.length := lt_length_at h
    have h1 : nextIs txt off ['<', '/'] = false := nextIs_two_false_fst h hc
    have h2 : nextIs txt off ['<'] = false := nextIs_one_false h hc
    have hdrop : txt.drop (off + 1) = u ++ v := by
      have h' : txt.drop off = [c] ++ (u ++ v) := by simpa using h
      simpa using drop_at h'
    have step : parseContent txt (f + u.length + 1) so off tags content =
        parseContent txt (f + u.length) so (off + 1) tags content := by
      simp only [parseContent, hlt, if_true, h1, h2, Bool.false_eq_true, if_false]
    have ihh := ih f so (off + 1) tags content hdrop
      (fun a ha => hu a (List.mem_cons_of_mem c ha))
    have e1 : f + (c :: u).length = f + u.length + 1 := by
      simp [List.length_cons]
      omega
    have e2 : off + 1 + u.length = off + (c :: u).length := by
      simp only [List.length_cons]
      omega
    rw [e1, step, ihh, e2]

/-- C4 counterexample: the claim quantifies over *every* string without a
`<`; the empty string contains no `<`, yet `parse` returns the empty token
sequence, not the one-element sequence containing the empty string. -/
theorem c4_empty_counterexample :
    parse [] 1 = PRes.ok [] ∧ PRes.ok [] ≠ PRes.ok [Token.text []] := by
  refine ⟨rfl, fun h => ?_⟩
  injection h with h2
  exact absurd h2 (by simp)

/-- C4 (amended): for every *non-empty* string containing no `<` character,
`parse` returns the one-element sequence containing that string unchanged
(fuel `length + 1` suffices: one unit per character plus the final
flush). -/
theorem c4_no_lt_parses_as_single_text (s : Str) (hne : s ≠ [])
    (hlt : '<' ∉ s) : parse s (s.length + 1) = .ok [.text s] := by
  unfold parse
  have h : s.drop 0 = s ++ s.drop (0 + s.length) :=
    drop_self_append (List.drop_zero s)
  have hscan := @parseContent_scan s s _ 1 0 0 [] [] h
    (fun c hc he => hlt (he ▸ hc))
  have e : s.length + 1 = 1 + s.length := Nat.add_comm _ _
  rw [e, hscan]
  have hpos : 0 < s.length := List.length_pos.2 hne
  simp only [parseContent]
  simp [hpos, List.drop_zero]

/-- C4 witness: the amended claim applied to the concrete input `"abc"`. -/
theorem c4_witness :
    parse ("abc".toList) (("abc".toList).length + 1) =
      .ok [.text ("abc".toList)] :=
  c4_no_lt_parses_as_single_text _ (by decide) (by decide)

/-! ## C9: empty input, and no empty text tokens -/

theorem textsOkL_append (a b : List Token) :
    textsOkL (a ++ b) = (textsOkL a && textsOkL b) := by
  induction a with
  | nil => simp [textsOkL]
  | cons t ts ih => simp [textsOkL, ih, Bool.and_assoc]

theorem subStr_ne_nil {txt : Str} {a b : Nat} (h1 : a < b)
    (h2 : b ≤ txt.length) : subStr txt a b ≠ [] := by
  unfold subStr
  intro h
  have := List.drop_eq_nil_iff.1 h
  rw [List.length_take] at this
  omega

theorem textsOkL_flush {txt : Str} {so off : Nat} {content : List Token}
    (hok : textsOkL content = true) (hoff : off ≤ txt.length) :
    textsOkL
      (if so < off then content ++ [Token.text (subStr txt so off)]
       else content) = true := by
  split
  · rename_i hso
    rw [textsOkL_append, hok]
    have hne := subStr_ne_nil hso hoff
    simp [textsOkT, textsOkL, List.isEmpty_iff, hne]
  · exact hok

/-- The structural invariant behind C9: whatever tokens a successful run of
`parseTag` or `parseContent` produces, all their text tokens (at any
depth) are non-empty, because a text token is only ever flushed over a
non-trivial span of the input. -/
theorem texts_invariant : ∀ fuel : Nat,
    (∀ txt off tags tok off2 tags2,
      parseTag txt fuel off tags = .ok tok off2 tags2 →
      textsOkL tok.toList = true) ∧
    (∀ txt so off tags content toks off2 tags2, textsOkL content = true →
      parseContent txt fuel so off tags content = .ok toks off2 tags2 →
      textsOkL toks = true) := by
  intro fuel
  induction fuel with
  | zero =>
    constructor
    · intro txt off tags tok off2 tags2 h
      exact absurd h (by simp [parseTag])
    · intro txt so off tags content toks off2 tags2 hc h
      exact absurd h (by simp [parseContent])
  | succ f ih =>
    obtain ⟨ihT, ihC⟩ := ih
    constructor
    · intro txt off tags tok off2 tags2 h
      simp only [parseTag] at h
      rcases hA : parseAttributes txt f (parseTagName txt off).2 [] with
        _ | o | ⟨attrs, sc, o2⟩ <;> rw [hA] at h
      · exact absurd h (by simp)
      · injection h with h1 h2 h3
        subst h1
        rfl
      · by_cases hsc : sc = true
        · rw [hsc] at h
          simp only [if_true] at h
          injection h with h1 h2 h3
          subst h1
          simp [Option.toList, textsOkL, textsOkT]
        · rw [Bool.not_eq_true] at hsc
          rw [hsc] at h
          simp only [Bool.false_eq_true, if_false] at h
          rcases hC : parseContent txt f o2 o2 (tags ++ [(parseTagName txt off).1]) []
            with _ | ⟨children, o3, tags3⟩ <;> rw [hC] at h
          · exact absurd h (by simp)
          · injection h with h1 h2 h3
            subst h1
            have := ihC txt o2 o2 (tags ++ [(parseTagName txt off).1]) [] children
              o3 tags3 rfl hC
            simp [Option.toList, textsOkL, textsOkT, this]
    · intro txt so off tags content toks off2 tags2 hc h
      simp only [parseContent] at h
      split at h
      case isFalse hoff =>
        injection h with h1 h2 h3
        subst h1
        split
        case isTrue hso =>
          rw [textsOkL_append, hc]
          have hne : txt.drop so ≠ [] := by
            intro hnil
            have := List.drop_eq_nil_iff.1 hnil
            omega
          simp [textsOkT, textsOkL, List.isEmpty_iff, hne]
        case isFalse hso => exact hc
      case isTrue hoff =>
        have hflush : textsOkL
            (if so < off then content ++ [Token.text (subStr txt so off)]
             else content) = true :=
          textsOkL_flush hc (by omega)
        split at h
        · -- closing-tag candidate
          split at h
          · -- valid
            split at h
            · -- lastIdxOf none: keep scanning
              exact ihC txt _ _ tags _ toks off2 tags2 hflush h
            · -- matched: return the flushed content
              injection h with h1 h2 h3
              subst h1
              exact hflush
          · -- invalid: keep scanning
            exact ihC txt _ _ tags _ toks off2 tags2 hflush h
        · split at h
          · -- opening-tag candidate
            split at h
            · -- valid: parse the tag then continue
              rcases hT : parseTag txt f (off + 1) tags with _ | ⟨tokOpt, o2, tags2'⟩ <;>
                rw [hT] at h
              · exact absurd h (by simp)
              · refine ihC txt _ _ _ _ toks off2 tags2 ?_ h
                rw [textsOkL_append, hflush]
                simpa using ihT txt (off + 1) tags tokOpt o2 tags2' hT
            · -- invalid `<`: plain character
              exact ihC txt _ _ tags _ toks off2 tags2 hc h
          · -- regular character
            exact ihC txt _ _ tags _ toks off2 tags2 hc h

/-- C9: parsing the empty string yields the empty token sequence (not a
one-element sequence containing the empty string), and more generally
every text token produced by `parse`, at any depth of the forest, is a
non-empty string. -/
theorem c9_no_empty_text_tokens :
    (∀ f, parse [] (f + 1) = .ok []) ∧
    (∀ txt fuel toks, parse txt fuel = .ok toks → textsOkL toks = true) := by
  constructor
  · intro f
    rfl
  · intro txt fuel toks h
    unfold parse at h
    rcases hC : parseContent txt fuel 0 0 [] [] with _ | ⟨toks', off', tags'⟩ <;>
      rw [hC] at h
    · exact absurd h (by simp)
    · injection h with h1
      subst h1
      exact (texts_invariant fuel).2 txt 0 0 [] [] toks' off' tags' rfl hC

/-- C9 witness: the invariant evaluated on the parse of a concrete input
with nested tags and text. -/
theorem c9_witness :
    textsOkL [Token.tag ("A".toList) [] [.text ("x".toList)]] = true :=
  c9_no_empty_text_tokens.2 ("<a>x</a>".toList) 30
    [Token.tag ("A".toList) [] [.text ("x".toList)]] (by rfl)

/-! ## C2: malformed attributes are caught inside `parseTag` -/

/-- C2: exceptions are modelled by the `thrown` results; the only `throw`
is the unterminated-quote failure of `parseAttribute`, it propagates
through `parseAttributes`, and `parseTag`'s catch turns any such throw
into "no token", with the cursor exactly where the failure left it (and
the pushed name still on the stack).  Consequently no exception outcome
exists in the types of `parseContent`/`parse`: nothing ever escapes to the
caller.  The second conjunct runs the characterization input with an
unterminated quoted value: the malformed tag produces no token, its markup
is not re-emitted, and the surrounding text is preserved. -/
theorem c2_never_raises :
    (∀ txt fuel off tags o,
      parseAttributes txt fuel (parseTagName txt off).2 [] = .thrown o →
      parseTag txt (fuel + 1) off tags =
        .ok none o (tags ++ [(parseTagName txt off).1])) ∧
    parse ("String with <foobar attr1=\"123></foobar>.".toList) 100 =
      .ok [.text ("String with ".toList)] := by
  constructor
  · intro txt fuel off tags o h
    simp only [parseTag, h]
  · rfl

/-- C2 witness: on `"<tag a=\"1"` the quoted value never closes; the
attribute scan throws at the end of the input (cursor 9) and `parseTag`
catches it, producing no token, cursor 9 and the name still pushed. -/
theorem c2_witness :
    parseTag ("<tag a=\"1".toList) (1 + 1) 1 [] =
      .ok none 9 ([] ++ [("TAG".toList)]) :=
  c2_never_raises.1 ("<tag a=\"1".toList) 1 1 [] 9 (by rfl)

/-! ## C10: duplicate attribute names -/

theorem lookupA_jsSet_self (l : List (Str × Str)) (n v : Str) :
    lookupA (jsSet l n v) n = some v := by
  induction l with
  | nil => simp [jsSet, lookupA]
  | cons kv rest ih =>
    obtain ⟨k, w⟩ := kv
    by_cases hk : k = n
    · simp [jsSet, hk, lookupA]
    · simp [jsSet, hk, lookupA, ih]

theorem lookupA_jsSet_other (l : List (Str × Str)) (n v m : Str)
    (h : m ≠ n) : lookupA (jsSet l n v) m = lookupA l m := by
  induction l with
  | nil => simp [jsSet, lookupA, Ne.symm h]
  | cons kv rest ih =>
    obtain ⟨k, w⟩ := kv
    by_cases hk : k = n
    · subst hk
      have hkm : ¬(k = m) := fun he => h he.symm
      simp [jsSet, lookupA, hkm]
    · by_cases hkm : k = m
      · simp [jsSet, hk, lookupA, hkm, h]
      · simp [jsSet, hk, lookupA, hkm, ih]

theorem keys_jsSet (l : List (Str × Str)) (n v : Str) :
    (jsSet l n v).map Prod.fst =
      if n ∈ l.map Prod.fst then l.map Prod.fst
      else l.map Prod.fst ++ [n] := by
  induction l with
  | nil => simp [jsSet]
  | cons kv rest ih =>
    obtain ⟨k, w⟩ := kv
    by_cases hk : k = n
    · simp [jsSet, hk]
    · by_cases hn : n ∈ rest.map Prod.fst
      · simp [jsSet, hk, ih, hn, Ne.symm hk]
      · simp [jsSet, hk, ih, hn, Ne.symm hk]

theorem nodup_keys_jsSet {l : List (Str × Str)} (n v : Str)
    (h : (l.map Prod.fst).Nodup) : ((jsSet l n v).map Prod.fst).Nodup := by
  rw [keys_jsSet]
  split
  · exact h
  · rename_i hn
    simp [List.nodup_append, h, hn]

/-- Whatever run of attributes `parseAttributes` scans, the resulting
object's keys stay unique, because `jsSet` overwrites existing keys. -/
theorem parseAttributes_nodup :
    ∀ (fuel : Nat) (txt : Str) (off : Nat) (attrs0 attrs : List (Str × Str))
      (sc : Bool) (off2 : Nat), (attrs0.map Prod.fst).Nodup →
      parseAttributes txt fuel off attrs0 = .ok attrs sc off2 →
      (attrs.map Prod.fst).Nodup := by
  intro fuel
  induction fuel with
  | zero =>
    intro txt off attrs0 attrs sc off2 h0 h
    exact absurd h (by simp [parseAttributes])
  | succ f ih =>
    intro txt off attrs0 attrs sc off2 h0 h
    simp only [parseAttributes] at h
    split at h
    · injection h with h1 h2 h3
      subst h1
      exact h0
    · split at h
      · injection h with h1 h2 h3
        subst h1
        exact h0
      · rcases hA : parseAttribute txt
          (skipW txt (fun c => !isAttrNameOrClosingChar c) off) with o | ⟨r, o2⟩ <;>
          rw [hA] at h
        · exact absurd h (by simp)
        · rcases r with _ | ⟨nn, vv⟩
          · exact ih txt o2 attrs0 attrs sc off2 h0 h
          · exact ih txt o2 _ attrs sc off2 (nodup_keys_jsSet nn vv h0) h

/-- C10: assigning a duplicated attribute name overwrites the previous
value (`jsSet` reads back the newest value, leaves other keys alone, and
preserves key uniqueness), the attribute objects built by the scanner
always have unique keys, and on the concrete input
`<t a='1' a='2'>x</t>` the attribute `a` maps to `2`, the value of the
rightmost occurrence. -/
theorem c10_duplicate_attr_last_wins :
    (∀ l n v, lookupA (jsSet l n v) n = some v) ∧
    (∀ l n v m, m ≠ n → lookupA (jsSet l n v) m = lookupA l m) ∧
    (∀ txt fuel off attrs sc off2,
      parseAttributes txt fuel off [] = .ok attrs sc off2 →
      (attrs.map Prod.fst).Nodup) ∧
    parse ("<t a='1' a='2'>x</t>".toList) 50 =
      .ok [.tag ("T".toList) [("a".toList, "2".toList)] [.text ("x".toList)]] := by
  refine ⟨lookupA_jsSet_self, lookupA_jsSet_other, ?_, by rfl⟩
  intro txt fuel off attrs sc off2 h
  exact parseAttributes_nodup fuel txt off [] attrs sc off2 (by simp) h

/-- C10 witness: the uniqueness conjunct applied to the attribute scan of
the duplicated-attribute input. -/
theorem c10_witness :
    (([(("a".toList), ("2".toList))] : List (Str × Str)).map Prod.fst).Nodup :=
  c10_duplicate_attr_last_wins.2.2.1 ("<t a='1' a='2'>x</t>".toList) 10 2
    [("a".toList, "2".toList)] false 15 (by rfl)

/-! ## C3, C8: closing-tag matching against the stack -/

theorem lastIdxOf_none_iff {l : List Str} {x : Str} :
    lastIdxOf l x = none ↔ x ∉ l := by
  induction l with
  | nil => simp [lastIdxOf]
  | cons a rest ih =>
    constructor
    · intro h hmem
      simp only [lastIdxOf] at h
      rcases hr : lastIdxOf rest x with _ | i <;> rw [hr] at h
      · by_cases hax : a = x
        · rw [if_pos hax] at h
          exact absurd h (by simp)
        · rcases List.mem_cons.1 hmem with he | hm
          · exact hax he.symm
          · exact (ih.1 hr) hm
      · exact absurd h (by simp)
    · intro h
      have hx : x ∉ rest := fun hm => h (List.mem_cons_of_mem a hm)
      have hax : ¬(a = x) := fun he => h (he ▸ List.mem_cons_self a rest)
      simp [lastIdxOf, ih.2 hx, hax]

theorem lastIdxOf_mem {l : List Str} {x : Str} (h : x ∈ l) :
    ∃ i, lastIdxOf l x = some i := by
  rcases hr : lastIdxOf l x with _ | i
  · exact absurd h (lastIdxOf_none_iff.1 hr)
  · exact ⟨i, rfl⟩

/-- `lastIndexOf` really is the *last* occurrence: it holds the value, and
nothing above it does. -/
theorem lastIdxOf_spec :
    ∀ {l : List Str} {x : Str} {i : Nat}, lastIdxOf l x = some i →
      i < l.length ∧ l.get? i = some x ∧
        ∀ j, i < j → l.get? j ≠ some x := by
  intro l
  induction l with
  | nil => intro x i h; exact absurd h (by simp [lastIdxOf])
  | cons a rest ih =>
    intro x i h
    simp only [lastIdxOf] at h
    rcases hr : lastIdxOf rest x with _ | i' <;> rw [hr] at h
    · by_cases hax : a = x
      · rw [if_pos hax] at h
        injection h with hi
        subst hi
        subst hax
        refine ⟨by simp, by simp, ?_⟩
        intro j hj hget
        rcases j with _ | j'
        · omega
        · rw [List.get?_cons_succ] at hget
          exact (lastIdxOf_none_iff.1 hr) (List.get?_mem hget)
      · rw [if_neg hax] at h
        exact absurd h (by simp)
    · injection h with hi
      subst hi
      obtain ⟨hlen, hget, hafter⟩ := ih hr
      refine ⟨by simp; omega, by simpa using hget, ?_⟩
      intro j hj hget2
      rcases j with _ | j'
      · omega
      · rw [List.get?_cons_succ] at hget2
        exact hafter j' (by omega) hget2

/-- The pop-until loop, run with fuel `l.length` as in `parseContent`,
truncates the stack to its first `i` entries. -/
theorem popLoop_take : ∀ (f : Nat) (l : List Str) (i : Nat), l.length ≤ f →
    popLoop f l i = l.take i := by
  intro f
  induction f with
  | zero =>
    intro l i h
    have : l = [] := List.eq_nil_of_length_eq_zero (by omega)
    subst this
    simp [popLoop]
  | succ f ih =>
    intro l i h
    simp only [popLoop]
    split
    · rename_i hlt
      rw [ih l.dropLast i (by rw [List.length_dropLast]; omega)]
      rw [List.dropLast_eq_take, List.take_take]
      congr 1
      omega
    · rename_i hge
      rw [List.take_of_length_le (by omega)]

/-- One loop iteration at a valid closing-tag candidate: flush the pending
text, read the name, skip to `>`, then either return (stack match) or
continue scanning past the closer (no match). -/
theorem parseContent_closing_step {txt v : Str} {off : Nat} (f so : Nat)
    (tags : List Str) (content : List Token)
    (h1 : txt.drop off = '<' :: '/' :: v)
    (h2 : tagNameTest (charAt txt (off + 2)) = true) :
    parseContent txt (f + 1) so off tags content =
      match lastIdxOf tags (parseTagName txt (off + 2)).1 with
      | none =>
        parseContent txt f
          (skipW txt (fun c => !(c == '>')) (parseTagName txt (off + 2)).2 + 1)
          (skipW txt (fun c => !(c == '>')) (parseTagName txt (off + 2)).2 + 1)
          tags
          (if so < off then content ++ [Token.text (subStr txt so off)]
           else content)
      | some i =>
        .ok
          (if so < off then content ++ [Token.text (subStr txt so off)]
           else content)
          (skipW txt (fun c => !(c == '>')) (parseTagName txt (off + 2)).2 + 1)
          (popLoop tags.length tags i) := by
  have hlt : off < txt.length := lt_length_at h1
  have hnext : nextIs txt off ['<', '/'] = true :=
    nextIs_at ['<', '/'] (by simpa using h1)
  simp only [parseContent, hlt, if_true, hnext, h2]

/-- One loop iteration at a valid opening-tag candidate: flush the pending
text, parse the tag, then continue from wherever it left the cursor. -/
theorem parseContent_opening_step {txt v : Str} {off : Nat} (f so : Nat)
    (tags : List Str) (content : List Token)
    (h1 : txt.drop off = '<' :: v)
    (h2 : nextIs txt off ['<', '/'] = false)
    (h3 : tagNameTest (charAt txt (off + 1)) = true) :
    parseContent txt (f + 1) so off tags content =
      match parseTag txt f (off + 1) tags with
      | .out => .out
      | .ok tokOpt o2 tags2 =>
        parseContent txt f o2 o2 tags2
          ((if so < off then content ++ [Token.text (subStr txt so off)]
            else content) ++ tokOpt.toList) := by
  have hlt : off < txt.length := lt_length_at h1
  have hnop : nextIs txt off ['<'] = true := nextIs_at ['<'] (by simpa using h1)
  simp only [parseContent, hlt, if_true, h2, Bool.false_eq_true, if_false,
    hnop, h3]

/-- C3: when a valid closing tag's canonical name occurs on the open-tags
stack, the scanner matches the *last* (most recent) occurrence — the
matched index holds the name and no later stack entry does — pops the
stack down through that index inclusive (`take i`), and returns the
content accumulated so far (with pending text flushed). -/
theorem c3_closing_matches_most_recent (txt : Str) (f so off : Nat)
    (tags : List Str) (content : List Token) (v : Str)
    (h1 : txt.drop off = '<' :: '/' :: v)
    (h2 : tagNameTest (charAt txt (off + 2)) = true)
    (h4 : (parseTagName txt (off + 2)).1 ∈ tags) :
    ∃ i, lastIdxOf tags (parseTagName txt (off + 2)).1 = some i ∧
      tags.get? i = some (parseTagName txt (off + 2)).1 ∧
      (∀ j, i < j → tags.get? j ≠ some (parseTagName txt (off + 2)).1) ∧
      parseContent txt (f + 1) so off tags content =
        .ok
          (if so < off then content ++ [Token.text (subStr txt so off)]
           else content)
          (skipW txt (fun c => !(c == '>')) (parseTagName txt (off + 2)).2 + 1)
          (tags.take i) := by
  obtain ⟨i, hi⟩ := lastIdxOf_mem h4
  obtain ⟨hlen, hget, hafter⟩ := lastIdxOf_spec hi
  refine ⟨i, hi, hget, hafter, ?_⟩
  rw [parseContent_closing_step f so tags content h1 h2, hi]
  dsimp only
  rw [popLoop_take tags.length tags i le_rfl]

/-- C3 witness: in `"x</b>y"` with open stack `[A, B, B]`, the closer `</b>`
matches the topmost `B` (index 2), pops through it, and returns the
flushed text `"x"`. -/
theorem c3_witness :
    ∃ i,
      lastIdxOf [("A".toList), ("B".toList), ("B".toList)]
        (parseTagName ("x</b>y".toList) 3).1 = some i ∧
      [("A".toList), ("B".toList), ("B".toList)].get? i =
        some (parseTagName ("x</b>y".toList) 3).1 ∧
      (∀ j, i < j →
        [("A".toList), ("B".toList), ("B".toList)].get? j ≠
          some (parseTagName ("x</b>y".toList) 3).1) ∧
      parseContent ("x</b>y".toList) (9 + 1) 0 1
          [("A".toList), ("B".toList), ("B".toList)] [] =
        .ok
          (if 0 < 1 then
            [] ++ [Token.text (subStr ("x</b>y".toList) 0 1)]
           else [])
          (skipW ("x</b>y".toList) (fun c => !(c == '>'))
            (parseTagName ("x</b>y".toList) 3).2 + 1)
          ([("A".toList), ("B".toList), ("B".toList)].take i) :=
  c3_closing_matches_most_recent ("x</b>y".toList) 9 0 1
    [("A".toList), ("B".toList), ("B".toList)] [] ("b>y".toList)
    (by rfl) (by rfl) (by decide)

/-- C8: a valid closing tag whose canonical name is nowhere on the stack is
inert: the text accumulated before it is flushed as its own token, the
whole closing markup is consumed (the cursor restarts just past its `>`,
and the markup is pushed nowhere), the stack is untouched, and scanning
continues with a fresh text run.  On the concrete input `"a</b>c"` this
yields exactly the two text tokens `"a"` and `"c"`. -/
theorem c8_unmatched_closing_dropped :
    (∀ (txt v : Str) (off f so : Nat) (tags : List Str) (content : List Token),
      txt.drop off = '<' :: '/' :: v →
      tagNameTest (charAt txt (off + 2)) = true →
      (parseTagName txt (off + 2)).1 ∉ tags →
      parseContent txt (f + 1) so off tags content =
        parseContent txt f
          (skipW txt (fun c => !(c == '>')) (parseTagName txt (off + 2)).2 + 1)
          (skipW txt (fun c => !(c == '>')) (parseTagName txt (off + 2)).2 + 1)
          tags
          (if so < off then content ++ [Token.text (subStr txt so off)]
           else content)) ∧
    parse ("a</b>c".toList) 20 = .ok [.text ['a'], .text ['c']] := by
  refine ⟨?_, by rfl⟩
  intro txt v off f so tags content h1 h2 h4
  rw [parseContent_closing_step f so tags content h1 h2,
    lastIdxOf_none_iff.2 h4]

/-- C8 witness: the inert-closer step applied concretely inside `"a</b>c"`
at the closer (offset 1), with pending text `"a"` and an empty stack. -/
theorem c8_witness :
    parseContent ("a</b>c".toList) (9 + 1) 0 1 [] [] =
      parseContent ("a</b>c".toList) 9
        (skipW ("a</b>c".toList) (fun c => !(c == '>'))
          (parseTagName ("a</b>c".toList) 3).2 + 1)
        (skipW ("a</b>c".toList) (fun c => !(c == '>'))
          (parseTagName ("a</b>c".toList) 3).2 + 1)
        []
        (if 0 < 1 then [] ++ [Token.text (subStr ("a</b>c".toList) 0 1)]
         else []) :=
  c8_unmatched_closing_dropped.1 ("a</b>c".toList) ("b>c".toList) 1 9 0 [] []
    (by rfl) (by rfl) (by decide)

/-! ## C6, C7: literal-markup synthesis and handler resolution -/

theorem attrsToString_ne_nil (a : Str × Str) (attrs : List (Str × Str)) :
    attrsToString (a :: attrs) ≠ [] := by
  obtain ⟨k, v⟩ := a
  cases attrs <;> simp [attrsToString]

theorem attrsToString_isEmpty (attrs : List (Str × Str)) :
    (attrsToString attrs).isEmpty = attrs.isEmpty := by
  cases attrs with
  | nil => rfl
  | cons a rest =>
    cases he : attrsToString (a :: rest) with
    | nil => exact absurd he (attrsToString_ne_nil a rest)
    | cons x xs => rfl

/-- C6: in literal-markup synthesis, the `</NAME>` closing markup is present
exactly when the children array is non-empty; a childless tag without
attributes renders as `<NAME/>`, a childless tag with attributes as
`<NAME attrs />` (the space before `/>` appears only when attributes
exist).  The second conjunct ties childlessness to self-closing on the
tokenizer side: a self-closed attribute scan always produces a tag token
with an empty children sequence. -/
theorem c6_closing_markup_iff_children (nm : Str) (attrs : List (Str × Str))
    (children : List RNode) (i : Nat) :
    (tagTokenToString nm attrs children i =
      .frag i
        ([RNode.pre 0 (.rstr ('<' :: nm ++
          (if attrs.isEmpty then [] else ' ' :: attrsToString attrs) ++
          (if !children.isEmpty then ['>']
           else if !attrs.isEmpty then [' ', '/', '>'] else ['/', '>'])))] ++
          children ++
          [if children.isEmpty then RNode.rstr []
           else RNode.pre 2 (.rstr ('<' :: '/' :: nm ++ ['>']))])) ∧
    (∀ txt fuel off tags attrs2 o2,
      parseAttributes txt fuel (parseTagName txt off).2 [] = .ok attrs2 true o2 →
      parseTag txt (fuel + 1) off tags =
        .ok (some (.tag (parseTagName txt off).1 attrs2 [])) o2
          (tags ++ [(parseTagName txt off).1])) := by
  constructor
  · simp only [tagTokenToString]
    rw [attrsToString_isEmpty]
    cases hc : children.isEmpty <;> simp [hc]
  · intro txt fuel off tags attrs2 o2 hA
    simp only [parseTag, hA, if_true]

/-- C6 witness: the self-closing conjunct applied to the parse of `"<br/>"`
(the scan reports self-closed, the tag token has no children). -/
theorem c6_witness :
    parseTag ("<br/>".toList) (1 + 1) 1 [] =
      .ok (some (.tag ("BR".toList) [] [])) 5 ([] ++ [("BR".toList)]) :=
  (c6_closing_markup_iff_children [] [] [] 0).2 ("<br/>".toList) 1 1 [] [] 5
    (by rfl)

/-- C7: handler resolution for a tag token follows the fixed order — a
registry entry wins and its result is returned directly (regardless of
`defaultTagHandler` and `keepUnknownTags`); otherwise the default tag
handler; otherwise literal-markup synthesis when `keepUnknownTags`;
otherwise a transparent keyed fragment around the formatted children. -/
theorem c7_handler_resolution_order (p : FormatTextHandler)
    (tags : List (Str × FormatTagHandler)) (dflt : Option FormatTagHandler)
    (keep : Bool) (nm : Str) (attrs : List (Str × Str))
    (children : List Token) (i : Nat) :
    (∀ h, lookupA tags nm = some h →
      formatToken p tags dflt keep (.tag nm attrs children) i =
        h i ⟨nm, formatChildren p tags dflt keep children 0, attrs⟩) ∧
    (∀ d, lookupA tags nm = none → dflt = some d →
      formatToken p tags dflt keep (.tag nm attrs children) i =
        d i ⟨nm, formatChildren p tags dflt keep children 0, attrs⟩) ∧
    (lookupA tags nm = none → dflt = none → keep = true →
      formatToken p tags dflt keep (.tag nm attrs children) i =
        tagTokenToString nm attrs
          (formatChildren p tags dflt keep children 0) i) ∧
    (lookupA tags nm = none → dflt = none → keep = false →
      formatToken p tags dflt keep (.tag nm attrs children) i =
        .frag i (formatChildren p tags dflt keep children 0)) := by
  refine ⟨?_, ?_, ?_, ?_⟩
  · intro h hh
    simp only [formatToken, hh]
  · intro d h1 h2
    simp only [formatToken, h1, h2]
  · intro h1 h2 h3
    simp only [formatToken, h1, h2, h3, if_true]
  · intro h1 h2 h3
    simp only [formatToken, h1, h2, h3, Bool.false_eq_true, if_false]

/-- C7 witness: with a handler registered for `B`, a `B` tag is formatted by
that handler even though `keepUnknownTags` is true and a default handler
is configured. -/
theorem c7_witness :
    formatToken defaultTextHandler
        [(("B".toList), fun _ _ => RNode.rnull)]
        (some (fun i _ => RNode.frag i [])) true
        (.tag ("B".toList) [] []) 0 =
      (fun (_ : Nat) (_ : TagData) => RNode.rnull) 0
        ⟨"B".toList,
          formatChildren defaultTextHandler
            [(("B".toList), fun _ _ => RNode.rnull)]
            (some (fun i _ => RNode.frag i [])) true [] 0, []⟩ :=
  (c7_handler_resolution_order defaultTextHandler
      [(("B".toList), fun _ _ => RNode.rnull)]
      (some (fun i _ => RNode.frag i [])) true ("B".toList) [] [] 0).1
    (fun _ _ => RNode.rnull) (by rfl)

/-! ## C5: parsing well-formed serialized forests — helper lemmas -/

theorem flush_eq (txt : Str) (so off : Nat) (content : List Token) :
    (if so < off then content ++ [Token.text (subStr txt so off)] else content) =
      content ++
        (if so < off then [Token.text (subStr txt so off)] else []) := by
  split <;> simp

theorem subStr_to_end (txt : Str) (a : Nat) :
    subStr txt a txt.length = txt.drop a := by
  unfold subStr
  rw [List.take_length]

theorem flattenL_append (a b : List RNode) :
    flattenL (a ++ b) = flattenL a ++ flattenL b := by
  induction a with
  | nil => simp [flattenL]
  | cons c cs ih => simp [flattenL, ih]

theorem parseTagName_ser {txt nm v : Str} {off : Nat} {c : Char}
    (hnm : nm ≠ []) (hall : nm.all isTagNameChar = true)
    (h : txt.drop off = nm ++ c :: v) (hc : isTagNameChar c = false) :
    parseTagName txt off = (nm.map Char.toUpper, off + nm.length) := by
  rcases nm with _ | ⟨n0, nmt⟩
  · exact absurd rfl hnm
  · have hn0 : isTagNameChar n0 = true := by
      have := List.all_eq_true.1 hall n0 (by simp)
      simpa using this
    have e1 : skipW txt (fun c => !isTagNameChar c) off = off := by
      have := skipW_at (u := []) (c := n0) (v := nmt ++ c :: v)
        (p := fun c => !isTagNameChar c) (by simpa using h)
        (by simp) (by simp [hn0])
      simpa using this
    have e2 : skipW txt isTagNameChar off = off + (n0 :: nmt).length := by
      refine skipW_at (u := n0 :: nmt) (c := c) (v := v) (by simpa using h) ?_
        (by simp [hc])
      intro a ha
      have := List.all_eq_true.1 hall a ha
      simpa using this
    have e3 : subStr txt off (off + (n0 :: nmt).length) = n0 :: nmt :=
      subStr_at (by simpa using h)
    simp only [parseTagName, e1, e2, e3]

theorem jsSet_append {l : List (Str × Str)} {n : Str} (v : Str)
    (h : n ∉ l.map Prod.fst) : jsSet l n v = l ++ [(n, v)] := by
  induction l with
  | nil => simp [jsSet]
  | cons kv rest ih =>
    obtain ⟨k, w⟩ := kv
    have hk : ¬(k = n) := by
      intro he
      exact h (by simp [he])
    simp only [jsSet, if_neg hk, List.cons_append]
    rw [ih (fun hm => h (by simp [hm]))]

theorem lastIdxOf_ge {tags : List Str} {x : Str} {k : Nat}
    (hk : tags.get? k = some x) :
    ∃ i, lastIdxOf tags x = some i ∧ k ≤ i ∧ i < tags.length := by
  obtain ⟨i, hi⟩ := lastIdxOf_mem (List.get?_mem hk)
  obtain ⟨hlen, _, hafter⟩ := lastIdxOf_spec hi
  refine ⟨i, hi, ?_, hlen⟩
  by_contra hlt
  exact hafter k (by omega) hk

theorem take_append_ge {l1 l2 : List Str} {i : Nat} (h : l1.length ≤ i) :
    (l1 ++ l2).take i = l1 ++ l2.take (i - l1.length) := by
  have e := @List.take_append _ l1 l2 (i - l1.length)
  rw [show l1.length + (i - l1.length) = i from by omega] at e
  exact e

/-- Scanning one serialized well-formed attribute `name=QvalueQ` starting at
its name: the attribute parser returns exactly the name/value pair and
leaves the cursor after the closing quote. -/
theorem parseAttribute_ser {txt : Str} {off : Nat} (a : SAttr) (rest2 : Str)
    (ha : wfAttr a = true)
    (h : txt.drop off = a.name ++ ('=' :: a.quote :: (a.value ++ a.quote :: rest2))) :
    parseAttribute txt off =
      .ok (some (a.name, a.value)) (off + (a.name.length + a.value.length + 3)) := by
  have ha' := ha
  unfold wfAttr at ha'
  rw [Bool.and_eq_true, Bool.and_eq_true, Bool.and_eq_true] at ha'
  obtain ⟨⟨⟨hne, hall⟩, hq⟩, hv⟩ := ha'
  have hname_ne : a.name ≠ [] := by
    intro he
    rw [he] at hne
    simp at hne
  have hq' : a.quote = '\'' ∨ a.quote = '"' := by
    rw [Bool.or_eq_true] at hq
    rcases hq with h1 | h1
    · exact Or.inl (by simpa using h1)
    · exact Or.inr (by simpa using h1)
  have hqs : isSpaceChar a.quote = false := by
    rcases hq' with h1 | h1 <;> rw [h1] <;> rfl
  have hlen_pos : 0 < a.name.length := List.length_pos.2 hname_ne
  have e1 : skipW txt isAttrNameChar off = off + a.name.length := by
    refine skipW_at h ?_ (by decide)
    intro x hx
    simpa using List.all_eq_true.1 hall x hx
  have hne1 : ¬(off + a.name.length = off) := by omega
  have ename : subStr txt off (off + a.name.length) = a.name := subStr_at h
  have hd1 : txt.drop (off + a.name.length) =
      '=' :: a.quote :: (a.value ++ a.quote :: rest2) := drop_at h
  have e2 : skipW txt isSpaceChar (off + a.name.length) =
      off + a.name.length := by
    have := skipW_at (u := []) (c := '=')
      (v := a.quote :: (a.value ++ a.quote :: rest2)) (p := isSpaceChar)
      (by simpa using hd1) (by simp) (by decide)
    simpa using this
  have e3 : nextIs txt (off + a.name.length) ['='] = true :=
    nextIs_at ['='] (by simpa using hd1)
  have hd2 : txt.drop (off + a.name.length + 1) =
      a.quote :: (a.value ++ a.quote :: rest2) := by
    have := @drop_at txt ['='] (a.quote :: (a.value ++ a.quote :: rest2))
      (off + a.name.length) (by simpa using hd1)
    simpa using this
  have e4 : skipW txt isSpaceChar (off + a.name.length + 1) =
      off + a.name.length + 1 := by
    have := skipW_at (u := []) (c := a.quote)
      (v := a.value ++ a.quote :: rest2) (p := isSpaceChar)
      (by simpa using hd2) (by simp) hqs
    simpa using this
  have e5 : charAt txt (off + a.name.length + 1) = some a.quote :=
    charAt_at hd2
  have hd3 : txt.drop (off + a.name.length + 1 + 1) =
      a.value ++ a.quote :: rest2 := by
    have := @drop_at txt [a.quote] (a.value ++ a.quote :: rest2)
      (off + a.name.length + 1) (by simpa using hd2)
    simpa using this
  have e6 : skipW txt (fun c => !(c == a.quote)) (off + a.name.length + 1 + 1) =
      off + a.name.length + 1 + 1 + a.value.length := by
    refine skipW_at hd3 ?_ (by simp)
    intro x hx
    simpa using List.all_eq_true.1 hv x hx
  have hd4 : txt.drop (off + a.name.length + 1 + 1 + a.value.length) =
      a.quote :: rest2 := drop_at hd3
  have hlt : off + a.name.length + 1 + 1 + a.value.length < txt.length :=
    lt_length_at hd4
  have hne2 : ¬(off + a.name.length + 1 + 1 + a.value.length = txt.length) := by
    omega
  have evalue : subStr txt (off + a.name.length + 1 + 1)
      (off + a.name.length + 1 + 1 + a.value.length) = a.value := subStr_at hd3
  have efin : off + a.name.length + 1 + 1 + a.value.length + 1 =
      off + (a.name.length + a.value.length + 3) := by omega
  simp only [parseAttribute, e1, if_neg hne1, ename, e2, e3, if_true, e4, e5,
    if_pos hq', e6, if_neg hne2, evalue, efin]

/-- Scanning a serialized well-formed attribute list followed by `>` or
`/>`: the attribute loop appends exactly the source name/value pairs (in
order) to the accumulated object and stops just past the closing
delimiter, reporting the self-closed flag. -/
theorem parseAttributes_ser :
    ∀ (attrs : List SAttr) (txt rest : Str) (f off : Nat)
      (attrs0 : List (Str × Str)) (sc : Bool),
      attrs.all wfAttr = true →
      (attrs.map SAttr.name).Nodup →
      (∀ a ∈ attrs, a.name ∉ attrs0.map Prod.fst) →
      txt.drop off = serAttrs attrs ++ ((if sc then ['/', '>'] else ['>']) ++ rest) →
      parseAttributes txt (f + (attrs.length + 1)) off attrs0 =
        .ok (attrs0 ++ attrsPairs attrs) sc
          (off + ((serAttrs attrs).length + (if sc then 2 else 1))) := by
  intro attrs
  induction attrs with
  | nil =>
    intro txt rest f off attrs0 sc _ _ _ h
    rw [serAttrs] at h
    rw [List.nil_append] at h
    have efuel : f + (([] : List SAttr).length + 1) = f + 1 := by simp
    rw [efuel]
    cases sc with
    | false =>
      rw [if_neg (by simp)] at h
      have e1 : skipW txt (fun c => !isAttrNameOrClosingChar c) off = off := by
        have := skipW_at (u := []) (c := '>') (v := rest)
          (p := fun c => !isAttrNameOrClosingChar c) (by simpa using h)
          (by simp) (by decide)
        simpa using this
      have e2 : nextIs txt off ['>'] = true := nextIs_at ['>'] (by simpa using h)
      simp only [parseAttributes, e1, e2, if_true]
      simp [serAttrs, attrsPairs]
    | true =>
      rw [if_pos rfl] at h
      have hsh : txt.drop off = '/' :: ('>' :: rest) := by simpa using h
      have e1 : skipW txt (fun c => !isAttrNameOrClosingChar c) off = off := by
        have := skipW_at (u := []) (c := '/') (v := '>' :: rest)
          (p := fun c => !isAttrNameOrClosingChar c) (by simpa using hsh)
          (by simp) (by decide)
        simpa using this
      have e2 : nextIs txt off ['>'] = false :=
        nextIs_one_false hsh (by decide)
      have e3 : nextIs txt off ['/', '>'] = true :=
        nextIs_at ['/', '>'] (by simpa using hsh)
      simp only [parseAttributes, e1, e2, Bool.false_eq_true, if_false, e3,
        if_true]
      simp [serAttrs, attrsPairs]
  | cons a attrs' ih =>
    intro txt rest f off attrs0 sc hwf hnd hdisj h
    have hwa : wfAttr a = true := by
      have := List.all_eq_true.1 hwf a (by simp)
      simpa using this
    have hwf' : attrs'.all wfAttr = true := by
      rw [List.all_eq_true]
      intro x hx
      exact List.all_eq_true.1 hwf x (by simp [hx])
    have hnd' : (attrs'.map SAttr.name).Nodup := by
      rw [List.map_cons] at hnd
      exact hnd.of_cons
    have hnotin : a.name ∉ attrs'.map SAttr.name := by
      rw [List.map_cons] at hnd
      exact (List.nodup_cons.1 hnd).1
    have hname_ne : a.name ≠ [] := by
      have ha' := hwa
      unfold wfAttr at ha'
      rw [Bool.and_eq_true, Bool.and_eq_true, Bool.and_eq_true] at ha'
      intro he
      rw [he] at ha'
      simp at ha'
    obtain ⟨n0, nt, hn⟩ : ∃ n0 nt, a.name = n0 :: nt := by
      rcases he : a.name with _ | ⟨n0, nt⟩
      · exact absurd he hname_ne
      · exact ⟨n0, nt, rfl⟩
    have hn0 : isAttrNameChar n0 = true := by
      have ha' := hwa
      unfold wfAttr at ha'
      rw [Bool.and_eq_true, Bool.and_eq_true, Bool.and_eq_true] at ha'
      have := List.all_eq_true.1 ha'.1.1.2 n0 (by simp [hn])
      simpa using this
    -- reshape the serialization at the current offset
    have hsh : txt.drop off =
        ' ' :: (a.name ++ ('=' :: a.quote :: (a.value ++ a.quote ::
          (serAttrs attrs' ++ ((if sc then ['/', '>'] else ['>']) ++ rest))))) := by
      rw [h, serAttrs]
      simp [List.append_assoc]
    have hd1 : txt.drop (off + 1) =
        a.name ++ ('=' :: a.quote :: (a.value ++ a.quote ::
          (serAttrs attrs' ++ ((if sc then ['/', '>'] else ['>']) ++ rest)))) := by
      have := @drop_at txt [' '] _ off (by simpa using hsh)
      simpa using this
    have hd1' : txt.drop (off + 1) = n0 :: (nt ++ ('=' :: a.quote :: (a.value ++ a.quote ::
        (serAttrs attrs' ++ ((if sc then ['/', '>'] else ['>']) ++ rest))))) := by
      rw [hd1, hn]
      simp
    have hsh' : txt.drop off =
        ' ' :: (n0 :: (nt ++ ('=' :: a.quote :: (a.value ++ a.quote ::
          (serAttrs attrs' ++ ((if sc then ['/', '>'] else ['>']) ++ rest)))))) := by
      rw [hsh, hn]
      simp
    have hattr : isAttrNameOrClosingChar n0 = true := by
      simp only [isAttrNameChar, Bool.not_eq_true', Bool.or_eq_false_iff] at hn0
      simp [isAttrNameOrClosingChar, hn0.1.1.1, hn0.1.1.2]
    have e1 : skipW txt (fun c => !isAttrNameOrClosingChar c) off = off + 1 := by
      have hsk := skipW_at (u := [' ']) (c := n0)
        (p := fun c => !isAttrNameOrClosingChar c) (by simpa using hsh')
        (fun x hx => by simp at hx; subst hx; decide) (by simp [hattr])
      simpa using hsk
    have hne_gt : n0 ≠ '>' := by
      intro he
      rw [he] at hn0
      exact absurd hn0 (by decide)
    have hne_sl : n0 ≠ '/' := by
      intro he
      rw [he] at hn0
      exact absurd hn0 (by decide)
    have e2 : nextIs txt (off + 1) ['>'] = false := nextIs_one_false hd1' hne_gt
    have e3 : nextIs txt (off + 1) ['/', '>'] = false :=
      nextIs_two_false_fst hd1' hne_sl
    have e4 : parseAttribute txt (off + 1) =
        .ok (some (a.name, a.value))
          (off + 1 + (a.name.length + a.value.length + 3)) :=
      parseAttribute_ser a _ hwa hd1
    have e5 : jsSet attrs0 a.name a.value = attrs0 ++ [(a.name, a.value)] :=
      jsSet_append a.value (hdisj a (by simp))
    -- position after this attribute
    have hchunk : txt.drop off =
        (' ' :: (a.name ++ ('=' :: a.quote :: (a.value ++ [a.quote])))) ++
          (serAttrs attrs' ++ ((if sc then ['/', '>'] else ['>']) ++ rest)) := by
      rw [hsh]
      simp [List.append_assoc]
    have hclen : (' ' :: (a.name ++ ('=' :: a.quote :: (a.value ++ [a.quote])))).length =
        a.name.length + a.value.length + 4 := by
      simp
      omega
    have hd2 : txt.drop (off + 1 + (a.name.length + a.value.length + 3)) =
        serAttrs attrs' ++ ((if sc then ['/', '>'] else ['>']) ++ rest) := by
      have := drop_at hchunk
      rw [hclen] at this
      rw [show off + 1 + (a.name.length + a.value.length + 3) =
        off + (a.name.length + a.value.length + 4) from by omega]
      exact this
    have hdisj' : ∀ b ∈ attrs',
        b.name ∉ (attrs0 ++ [(a.name, a.value)]).map Prod.fst := by
      intro b hb
      rw [List.map_append]
      intro hmem
      rcases List.mem_append.1 hmem with hm | hm
      · exact hdisj b (by simp [hb]) hm
      · simp at hm
        exact hnotin (hm ▸ List.mem_map_of_mem SAttr.name hb)
    have ihh := ih txt rest f (off + 1 + (a.name.length + a.value.length + 3))
      (attrs0 ++ [(a.name, a.value)]) sc hwf' hnd' hdisj' hd2
    -- assemble the loop iteration
    have efuel : f + ((a :: attrs').length + 1) = (f + (attrs'.length + 1)) + 1 := by
      simp
      omega
    rw [efuel]
    generalize hG : f + (attrs'.length + 1) = G
    rw [hG] at ihh
    simp only [parseAttributes, e1, e2, Bool.false_eq_true, if_false, e3, e4, e5]
    rw [ihh]
    have hslen : (serAttrs (a :: attrs')).length =
        a.name.length + a.value.length + 4 + (serAttrs attrs').length := by
      rw [serAttrs]
      simp
      omega
    have eoff : off + 1 + (a.name.length + a.value.length + 3) +
        ((serAttrs attrs').length + (if sc then 2 else 1)) =
        off + ((serAttrs (a :: attrs')).length + (if sc then 2 else 1)) := by
      rw [hslen]
      cases sc <;> simp <;> omega
    rw [eoff]
    have epairs : (attrs0 ++ [(a.name, a.value)]) ++ attrsPairs attrs' =
        attrs0 ++ attrsPairs (a :: attrs') := by
      simp [attrsPairs]
    rw [epairs]

/-! ## The loop specifications, case by case -/

theorem nodeLoopSpec_txt (s : Str) : NodeLoopSpec (.txt s) := by
  intro txt rest φ so off tags content hwf h hso hpend
  simp only [wfN, Bool.and_eq_true] at hwf
  obtain ⟨hne, hnolt⟩ := hwf
  have hse : so = off := by
    by_contra hne2
    have hlt : so < off := by omega
    have := hpend hlt
    simp [isTxtN] at this
  subst hse
  have hsne : s ≠ [] := by
    intro he
    rw [he] at hne
    simp at hne
  have hnolt' : ∀ c ∈ s, c ≠ '<' := by
    simp at hnolt
    intro c hc he
    exact hnolt (he ▸ hc)
  have hsh : txt.drop so = s ++ rest := by simpa [serN] using h
  refine ⟨[], so, content, ?_, ?_, ?_, ?_⟩
  · have := @parseContent_scan txt s _ φ so so tags content hsh hnolt'
    simpa [fuelN, extraN, serN] using this
  · simp [serN]
  · intro _
    rfl
  · have hslen : 0 < s.length := List.length_pos.2 hsne
    have hsub : subStr txt so (so + s.length) = s := subStr_at hsh
    simp [serN, canonN, hsub, hslen]

theorem forestLoopSpec_nil : ForestLoopSpec .nil := by
  intro txt rest φ so off tags content _ _ hso _
  refine ⟨[], so, content, ?_, ?_, ?_⟩
  · simp [fuelF, extraF, serF]
  · simpa [serF] using hso
  · simp [serF, canonF]

theorem forestLoopSpec_cons (n : SNode) (F : SForest)
    (IHn : NodeLoopSpec n) (IHF : ForestLoopSpec F) :
    ForestLoopSpec (.cons n F) := by
  intro txt rest φ so off tags content hwf h hso hpend
  simp only [wfF, Bool.and_eq_true] at hwf
  obtain ⟨⟨hwn, hwF⟩, hadj⟩ := hwf
  have hpendn : so < off → isTxtN n = false := by
    intro hlt
    have := hpend hlt
    simpa [headIsTxt] using this
  have hshape : txt.drop off = serN n ++ (serF F ++ rest) := by
    rw [h]
    simp [serF, List.append_assoc]
  obtain ⟨junk1, so2, content2, heq1, hso2, hisTxt, heqc1⟩ :=
    IHn txt (serF F ++ rest) (φ + fuelF F) so off tags content hwn hshape hso
      hpendn
  have hdF : txt.drop (off + (serN n).length) = serF F ++ rest :=
    drop_at hshape
  have hpendF : so2 < off + (serN n).length → headIsTxt F = false := by
    intro hlt
    have htxt := hisTxt hlt
    rcases hh : headIsTxt F with _ | _
    · rfl
    · rw [htxt, hh] at hadj
      simp at hadj
  obtain ⟨junk2, so3, content3, heq2, hso3, heqc2⟩ :=
    IHF txt rest (φ + extraN n) so2 (off + (serN n).length) (tags ++ junk1)
      content2 hwF hdF hso2 hpendF
  have eoff : off + (serN n).length + (serF F).length =
      off + (serF (.cons n F)).length := by
    simp [serF]
    omega
  refine ⟨junk1 ++ junk2, so3, content3, ?_, ?_, ?_⟩
  · have ef1 : φ + fuelF (.cons n F) = (φ + fuelF F) + fuelN n := by
      simp [fuelF]
      omega
    have ef2 : (φ + fuelF F) + extraN n = (φ + extraN n) + fuelF F := by omega
    have ef3 : (φ + extraN n) + extraF F = φ + extraF (.cons n F) := by
      simp [extraF]
      omega
    rw [ef1, heq1, ef2, heq2, ef3, eoff, List.append_assoc]
  · have : (serF (.cons n F)).length = (serN n).length + (serF F).length := by
      simp [serF]
    omega
  · have hx := congrArg (fun l => l ++ canonF F) heqc1
    simp only [List.append_assoc] at hx
    rw [← eoff, heqc2]
    simp only [List.append_assoc]
    rw [hx]
    simp [canonF]

/-- `parseTag` on a serialized well-formed self-closing tag (cursor just
past the `<`): reads the name, collects the attributes, sees `/>`, and
returns the childless tag token with the canonical name pushed. -/
theorem parseTag_ser_selfClosed {txt nm rest : Str} {off : Nat}
    (attrs : List SAttr) (g : Nat) (tags : List Str)
    (hnm_ne : nm ≠ []) (hnmall : nm.all isTagNameChar = true)
    (hattrs : attrs.all wfAttr = true) (hnd : (attrs.map SAttr.name).Nodup)
    (h : txt.drop off = nm ++ (serAttrs attrs ++ (['/', '>'] ++ rest))) :
    parseTag txt ((g + (attrs.length + 1)) + 1) off tags =
      .ok (some (.tag (nm.map Char.toUpper) (attrsPairs attrs) []))
        (off + nm.length + (serAttrs attrs).length + 2)
        (tags ++ [nm.map Char.toUpper]) := by
  have etag : parseTagName txt off = (nm.map Char.toUpper, off + nm.length) := by
    rcases attrs with _ | ⟨a0, attrs'⟩
    · exact parseTagName_ser hnm_ne hnmall
        (show txt.drop off = nm ++ '/' :: ('>' :: rest) by
          simpa [serAttrs] using h) (by decide)
    · exact parseTagName_ser hnm_ne hnmall
        (show txt.drop off = nm ++ ' ' :: (a0.name ++
            ('=' :: a0.quote :: (a0.value ++ a0.quote ::
              (serAttrs attrs' ++ (['/', '>'] ++ rest))))) by
          rw [h, serAttrs]
          simp [List.append_assoc]) (by decide)
  have hdA : txt.drop (off + nm.length) =
      serAttrs attrs ++ (['/', '>'] ++ rest) := drop_at h
  have eA : parseAttributes txt (g + (attrs.length + 1)) (off + nm.length) [] =
      .ok ([] ++ attrsPairs attrs) true
        ((off + nm.length) + ((serAttrs attrs).length + 2)) := by
    have := parseAttributes_ser attrs txt rest g (off + nm.length) [] true
      hattrs hnd (by simp) (by simpa using hdA)
    simpa using this
  simp only [parseTag, etag, eA, List.nil_append, if_true]
  have : off + nm.length + ((serAttrs attrs).length + 2) =
      off + nm.length + (serAttrs attrs).length + 2 := by omega
  rw [this]

/-- `parseTag` on a serialized well-formed non-self-closing tag (cursor just
past the `<`): reads the name, collects the attributes up to `>`, parses
the children forest recursively, and returns at the matching closer with
the tag token carrying the canonical children; the stack keeps the
caller's entries (plus residue above them). -/
theorem parseTag_ser_open {txt nm rest : Str} {off : Nat}
    (attrs : List SAttr) (ch : SForest) (φ2 : Nat) (tags : List Str)
    (IHch : ForestLoopSpec ch)
    (hnm_ne : nm ≠ []) (hnmall : nm.all isTagNameChar = true)
    (hattrs : attrs.all wfAttr = true) (hnd : (attrs.map SAttr.name).Nodup)
    (hwfch : wfF ch = true)
    (h : txt.drop off = nm ++ (serAttrs attrs ++
      (('>' :: (serF ch ++ ('<' :: '/' :: nm ++ ['>']))) ++ rest))) :
    ∃ junk,
      parseTag txt ((φ2 + (attrs.length + 1) + (fuelF ch + 1)) + 1) off tags =
        .ok (some (.tag (nm.map Char.toUpper) (attrsPairs attrs) (canonF ch)))
          (off + 2 * nm.length + (serAttrs attrs).length + (serF ch).length + 4)
          (tags ++ junk) := by
  obtain ⟨m0, mt, hm⟩ : ∃ m0 mt, nm = m0 :: mt := by
    rcases he : nm with _ | ⟨m0, mt⟩
    · exact absurd he hnm_ne
    · exact ⟨m0, mt, rfl⟩
  have hm0 : isTagNameChar m0 = true := by
    have := List.all_eq_true.1 hnmall m0 (by simp [hm])
    simpa using this
  have etag : parseTagName txt off = (nm.map Char.toUpper, off + nm.length) := by
    rcases attrs with _ | ⟨a0, attrs'⟩
    · exact parseTagName_ser hnm_ne hnmall
        (show txt.drop off = nm ++ '>' ::
            (serF ch ++ ('<' :: '/' :: nm ++ ['>']) ++ rest) by
          rw [h, serAttrs]
          simp [List.append_assoc]) (by decide)
    · exact parseTagName_ser hnm_ne hnmall
        (show txt.drop off = nm ++ ' ' :: (a0.name ++
            ('=' :: a0.quote :: (a0.value ++ a0.quote ::
              (serAttrs attrs' ++
                (('>' :: (serF ch ++ ('<' :: '/' :: nm ++ ['>']))) ++ rest))))) by
          rw [h, serAttrs]
          simp [List.append_assoc]) (by decide)
  have hdA : txt.drop (off + nm.length) =
      serAttrs attrs ++ (('>' :: (serF ch ++ ('<' :: '/' :: nm ++ ['>']))) ++ rest) :=
    drop_at h
  have efA : φ2 + (attrs.length + 1) + (fuelF ch + 1) =
      (φ2 + fuelF ch + 1) + (attrs.length + 1) := by omega
  have eA : parseAttributes txt (φ2 + (attrs.length + 1) + (fuelF ch + 1))
      (off + nm.length) [] =
      .ok ([] ++ attrsPairs attrs) false
        ((off + nm.length) + ((serAttrs attrs).length + 1)) := by
    rw [efA]
    exact parseAttributes_ser attrs txt
      (serF ch ++ ('<' :: '/' :: nm ++ ['>']) ++ rest) (φ2 + fuelF ch + 1)
      (off + nm.length) [] false hattrs hnd (by simp)
      (by rw [hdA]; simp [List.append_assoc])
  -- the children forest starts just past the `>`
  have hdch : txt.drop (off + nm.length + ((serAttrs attrs).length + 1)) =
      serF ch ++ ('<' :: '/' :: nm ++ ['>'] ++ rest) := by
    have hstep : txt.drop (off + nm.length) =
        (serAttrs attrs ++ ['>']) ++
          (serF ch ++ ('<' :: '/' :: nm ++ ['>'] ++ rest)) := by
      rw [hdA]
      simp [List.append_assoc]
    have h2 := drop_at hstep
    rw [show off + nm.length + (serAttrs attrs ++ ['>']).length =
      off + nm.length + ((serAttrs attrs).length + 1) from by simp] at h2
    exact h2
  obtain ⟨junk1, so3, content3, heqch, hso3, heqc⟩ :=
    IHch txt ('<' :: '/' :: nm ++ ['>'] ++ rest) (φ2 + (attrs.length + 1) + 1)
      (off + nm.length + ((serAttrs attrs).length + 1))
      (off + nm.length + ((serAttrs attrs).length + 1))
      (tags ++ [nm.map Char.toUpper]) [] hwfch hdch le_rfl (by omega)
  -- the closing tag after the children
  have hoff3 : txt.drop (off + nm.length + ((serAttrs attrs).length + 1) +
      (serF ch).length) = '<' :: '/' :: (nm ++ '>' :: rest) := by
    have h2 := drop_at hdch
    rw [h2]
    simp
  have hstep1 : txt.drop (off + nm.length + ((serAttrs attrs).length + 1) +
      (serF ch).length + 1) = '/' :: (nm ++ '>' :: rest) := by
    have h2 := @drop_at txt ['<'] ('/' :: (nm ++ '>' :: rest))
      (off + nm.length + ((serAttrs attrs).length + 1) + (serF ch).length)
      (by simpa using hoff3)
    simpa using h2
  have hd32 : txt.drop (off + nm.length + ((serAttrs attrs).length + 1) +
      (serF ch).length + 1 + 1) = nm ++ '>' :: rest := by
    have h2 := @drop_at txt ['/'] (nm ++ '>' :: rest)
      (off + nm.length + ((serAttrs attrs).length + 1) +
        (serF ch).length + 1)
      (by simpa using hstep1)
    simpa using h2
  have hd32' : txt.drop (off + nm.length + ((serAttrs attrs).length + 1) +
      (serF ch).length + 2) = nm ++ '>' :: rest := by
    rw [show off + nm.length + ((serAttrs attrs).length + 1) +
      (serF ch).length + 2 = off + nm.length + ((serAttrs attrs).length + 1) +
      (serF ch).length + 1 + 1 from by omega]
    exact hd32
  have hd32m : txt.drop (off + nm.length + ((serAttrs attrs).length + 1) +
      (serF ch).length + 2) = m0 :: (mt ++ '>' :: rest) := by
    rw [hd32', hm]
    simp
  have hvalid2 : tagNameTest (charAt txt
      (off + nm.length + ((serAttrs attrs).length + 1) + (serF ch).length + 2)) =
      true := by
    rw [charAt_at hd32m]
    simpa [tagNameTest] using hm0
  have etag2 : parseTagName txt
      (off + nm.length + ((serAttrs attrs).length + 1) + (serF ch).length + 2) =
      (nm.map Char.toUpper,
        off + nm.length + ((serAttrs attrs).length + 1) + (serF ch).length + 2 +
          nm.length) :=
    parseTagName_ser hnm_ne hnmall hd32' (by decide)
  have hgetNM : (tags ++ ([nm.map Char.toUpper] ++ junk1)).get? tags.length =
      some (nm.map Char.toUpper) := by
    rw [List.get?_append_right le_rfl]
    simp
  obtain ⟨i, hi, hge, hilt⟩ := lastIdxOf_ge hgetNM
  have hdgt : txt.drop (off + nm.length + ((serAttrs attrs).length + 1) +
      (serF ch).length + 2 + nm.length) = '>' :: rest := by
    have h2 := drop_at hd32'
    rw [show off + nm.length + ((serAttrs attrs).length + 1) +
      (serF ch).length + 2 + nm.length = off + nm.length +
      ((serAttrs attrs).length + 1) + (serF ch).length + 2 + nm.length from rfl]
    exact h2
  have eskip : skipW txt (fun c => !(c == '>'))
      (off + nm.length + ((serAttrs attrs).length + 1) + (serF ch).length + 2 +
        nm.length) = off + nm.length + ((serAttrs attrs).length + 1) +
        (serF ch).length + 2 + nm.length := by
    have h2 := skipW_at (u := []) (c := '>') (v := rest)
      (p := fun c => !(c == '>')) (by simpa using hdgt) (by simp) (by simp)
    simpa using h2
  have heqc' : content3 ++
      (if so3 < off + nm.length + ((serAttrs attrs).length + 1) +
          (serF ch).length then
        [Token.text (subStr txt so3 (off + nm.length +
          ((serAttrs attrs).length + 1) + (serF ch).length))]
      else []) = canonF ch := by
    rw [heqc]
    simp
  -- evaluate the children call down to the returned content
  have echild : parseContent txt (φ2 + (attrs.length + 1) + (fuelF ch + 1))
      (off + nm.length + ((serAttrs attrs).length + 1))
      (off + nm.length + ((serAttrs attrs).length + 1))
      (tags ++ [nm.map Char.toUpper]) [] =
      .ok (canonF ch)
        (off + nm.length + ((serAttrs attrs).length + 1) + (serF ch).length + 2 +
          nm.length + 1)
        (tags ++ ([nm.map Char.toUpper] ++ junk1).take (i - tags.length)) := by
    rw [show φ2 + (attrs.length + 1) + (fuelF ch + 1) =
      (φ2 + (attrs.length + 1) + 1) + fuelF ch from by omega]
    rw [heqch]
    rw [show φ2 + (attrs.length + 1) + 1 + extraF ch =
      (φ2 + (attrs.length + 1) + extraF ch) + 1 from by omega]
    rw [parseContent_closing_step (φ2 + (attrs.length + 1) + extraF ch) so3
      (tags ++ [nm.map Char.toUpper] ++ junk1) content3 hoff3 hvalid2]
    rw [etag2]
    have hi' : lastIdxOf (tags ++ [nm.map Char.toUpper] ++ junk1)
        (nm.map Char.toUpper) = some i := by
      rw [List.append_assoc]
      exact hi
    simp only [hi']
    rw [flush_eq, heqc', eskip,
      popLoop_take (tags ++ [nm.map Char.toUpper] ++ junk1).length _ i le_rfl,
      List.append_assoc,
      take_append_ge (by omega : tags.length ≤ i)]
  -- assemble `parseTag`
  refine ⟨([nm.map Char.toUpper] ++ junk1).take (i - tags.length), ?_⟩
  simp only [parseTag, etag, eA, List.nil_append, Bool.false_eq_true, if_false,
    echild]
  rw [show off + nm.length + ((serAttrs attrs).length + 1) + (serF ch).length +
    2 + nm.length + 1 = off + 2 * nm.length + (serAttrs attrs).length +
    (serF ch).length + 4 from by omega]

theorem nodeLoopSpec_tag (nm : Str) (attrs : List SAttr) (sc : Bool)
    (ch : SForest) (IHch : ForestLoopSpec ch) :
    NodeLoopSpec (.tag nm attrs sc ch) := by
  intro txt rest φ so off tags content hwf h hso hpend
  simp only [wfN, Bool.and_eq_true] at hwf
  obtain ⟨⟨⟨⟨⟨hnmne, hnmall⟩, hattrs⟩, hnd⟩, hscnil⟩, hwfch⟩ := hwf
  have hnd' : (attrs.map SAttr.name).Nodup := of_decide_eq_true hnd
  have hnm_ne : nm ≠ [] := by
    intro he
    rw [he] at hnmne
    simp at hnmne
  obtain ⟨m0, mt, hm⟩ : ∃ m0 mt, nm = m0 :: mt := by
    rcases he : nm with _ | ⟨m0, mt⟩
    · exact absurd he hnm_ne
    · exact ⟨m0, mt, rfl⟩
  have hm0 : isTagNameChar m0 = true := by
    have := List.all_eq_true.1 hnmall m0 (by simp [hm])
    simpa using this
  have hm0sl : m0 ≠ '/' := by
    intro he
    rw [he] at hm0
    exact absurd hm0 (by decide)
  cases sc with
  | true =>
    have hchnil : ch = .nil := by
      rcases ch with _ | ⟨n, f⟩
      · rfl
      · simp [isNilF] at hscnil
    subst hchnil
    have hsh : txt.drop off =
        '<' :: (nm ++ (serAttrs attrs ++ (['/', '>'] ++ rest))) := by
      rw [h]
      simp [serN, List.append_assoc]
    have hshm : txt.drop off =
        '<' :: m0 :: (mt ++ (serAttrs attrs ++ (['/', '>'] ++ rest))) := by
      rw [hsh, hm]
      simp
    have hlt : off < txt.length := lt_length_at hsh
    have hncl : nextIs txt off ['<', '/'] = false :=
      nextIs_two_false_snd hshm hm0sl
    have hnop : nextIs txt off ['<'] = true := nextIs_at ['<'] (by simpa using hsh)
    have hd1 : txt.drop (off + 1) =
        nm ++ (serAttrs attrs ++ (['/', '>'] ++ rest)) := by
      have h2 := @drop_at txt ['<']
        (nm ++ (serAttrs attrs ++ (['/', '>'] ++ rest))) off
        (by simpa using hsh)
      simpa using h2
    have hd1m : txt.drop (off + 1) =
        m0 :: (mt ++ (serAttrs attrs ++ (['/', '>'] ++ rest))) := by
      rw [hd1, hm]
      simp
    have hvalid : tagNameTest (charAt txt (off + 1)) = true := by
      rw [charAt_at hd1m]
      simpa [tagNameTest] using hm0
    have eT := parseTag_ser_selfClosed attrs φ tags hnm_ne hnmall hattrs hnd' hd1
    have efuel : φ + fuelN (.tag nm attrs true .nil) =
        ((φ + (attrs.length + 1)) + 1) + 1 := by
      simp [fuelN]
      omega
    have eoffs : off + 1 + nm.length + (serAttrs attrs).length + 2 =
        off + (serN (.tag nm attrs true SForest.nil)).length := by
      simp [serN]
      omega
    have eext : (φ + (attrs.length + 1)) + 1 =
        φ + extraN (.tag nm attrs true SForest.nil) := by
      simp [extraN]
      omega
    refine ⟨[nm.map Char.toUpper],
      off + (serN (.tag nm attrs true SForest.nil)).length,
      (content ++ (if so < off then [Token.text (subStr txt so off)] else [])) ++
        [Token.tag (nm.map Char.toUpper) (attrsPairs attrs) []],
      ?_, le_rfl, ?_, ?_⟩
    · rw [efuel, parseContent_opening_step ((φ + (attrs.length + 1)) + 1) so
        tags content hsh hncl hvalid, eT]
      dsimp only [Option.toList]
      rw [flush_eq, eoffs, eext]
    · intro hcon
      exact absurd hcon (lt_irrefl _)
    · simp [canonN, canonF]
  | false =>
    have hsh : txt.drop off =
        '<' :: (nm ++ (serAttrs attrs ++
          (('>' :: (serF ch ++ ('<' :: '/' :: nm ++ ['>']))) ++ rest))) := by
      rw [h]
      simp [serN, List.append_assoc]
    have hshm : txt.drop off =
        '<' :: m0 :: (mt ++ (serAttrs attrs ++
          (('>' :: (serF ch ++ ('<' :: '/' :: nm ++ ['>']))) ++ rest))) := by
      rw [hsh, hm]
      simp
    have hlt : off < txt.length := lt_length_at hsh
    have hncl : nextIs txt off ['<', '/'] = false :=
      nextIs_two_false_snd hshm hm0sl
    have hnop : nextIs txt off ['<'] = true := nextIs_at ['<'] (by simpa using hsh)
    have hd1 : txt.drop (off + 1) =
        nm ++ (serAttrs attrs ++
          (('>' :: (serF ch ++ ('<' :: '/' :: nm ++ ['>']))) ++ rest)) := by
      have h2 := @drop_at txt ['<']
        (nm ++ (serAttrs attrs ++
          (('>' :: (serF ch ++ ('<' :: '/' :: nm ++ ['>']))) ++ rest)))
        off (by simpa using hsh)
      simpa using h2
    have hd1m : txt.drop (off + 1) =
        m0 :: (mt ++ (serAttrs attrs ++
          (('>' :: (serF ch ++ ('<' :: '/' :: nm ++ ['>']))) ++ rest))) := by
      rw [hd1, hm]
      simp
    have hvalid : tagNameTest (charAt txt (off + 1)) = true := by
      rw [charAt_at hd1m]
      simpa [tagNameTest] using hm0
    obtain ⟨junk, eT⟩ :=
      parseTag_ser_open attrs ch φ tags IHch hnm_ne hnmall hattrs hnd' hwfch hd1
    have efuel : φ + fuelN (.tag nm attrs false ch) =
        ((φ + (attrs.length + 1) + (fuelF ch + 1)) + 1) + 1 := by
      simp [fuelN]
      omega
    have eoffs : off + 1 + 2 * nm.length + (serAttrs attrs).length +
        (serF ch).length + 4 =
        off + (serN (.tag nm attrs false ch)).length := by
      simp [serN]
      omega
    have eext : (φ + (attrs.length + 1) + (fuelF ch + 1)) + 1 =
        φ + extraN (.tag nm attrs false ch) := by
      simp [extraN]
      omega
    refine ⟨junk, off + (serN (.tag nm attrs false ch)).length,
      (content ++ (if so < off then [Token.text (subStr txt so off)] else [])) ++
        [Token.tag (nm.map Char.toUpper) (attrsPairs attrs) (canonF ch)],
      ?_, le_rfl, ?_, ?_⟩
    · rw [efuel, parseContent_opening_step
        ((φ + (attrs.length + 1) + (fuelF ch + 1)) + 1) so tags content hsh
        hncl hvalid, eT]
      dsimp only [Option.toList]
      rw [flush_eq, eoffs, eext]
    · intro hcon
      exact absurd hcon (lt_irrefl _)
    · simp [canonN, canonF]

mutual
/-- Every well-formed source node satisfies its loop specification. -/
theorem serN_loop (n : SNode) : NodeLoopSpec n :=
  match n with
  | .txt s => nodeLoopSpec_txt s
  | .tag nm attrs sc ch => nodeLoopSpec_tag nm attrs sc ch (serF_loop ch)

/-- Every well-formed source forest satisfies its loop specification. -/
theorem serF_loop (F : SForest) : ForestLoopSpec F :=
  match F with
  | .nil => forestLoopSpec_nil
  | .cons n f => forestLoopSpec_cons n f (serN_loop n) (serF_loop f)
end

/-- Parsing a serialized well-formed forest yields exactly its canonical
token forest (with fuel one more than the forest's scanning cost). -/
theorem parse_ser (F : SForest) (hwf : wfF F = true) :
    parse (serF F) (fuelF F + 1) = .ok (canonF F) := by
  have h0 : (serF F).drop 0 = serF F ++ (serF F).drop (0 + (serF F).length) :=
    drop_self_append (List.drop_zero _)
  obtain ⟨junk, so2, content2, heq, hso2, heqc⟩ :=
    serF_loop F (serF F) ((serF F).drop (0 + (serF F).length)) 1 0 0 [] []
      hwf h0 le_rfl (fun hlt => absurd hlt (by omega))
  unfold parse
  rw [show fuelF F + 1 = 1 + fuelF F from by omega, heq,
    show 1 + extraF F = extraF F + 1 from by omega]
  simp only [parseContent]
  rw [if_neg (show ¬(0 + (serF F).length < (serF F).length) from by omega)]
  have heqc' : content2 ++
      (if so2 < (serF F).length then
        [Token.text (subStr (serF F) so2 (serF F).length)]
       else []) = canonF F := by
    simpa using heqc
  rw [← subStr_to_end (serF F) so2, flush_eq, heqc']

theorem attrsPairs_isEmpty (attrs : List SAttr) :
    (attrsPairs attrs).isEmpty = attrs.isEmpty := by
  cases attrs <;> rfl

theorem formatChildren_isEmpty (p : FormatTextHandler)
    (t : List (Str × FormatTagHandler)) (d : Option FormatTagHandler) (kk : Bool)
    (l : List Token) (i : Nat) :
    (formatChildren p t d kk l i).isEmpty = l.isEmpty := by
  cases l <;> rfl

theorem flattenFmtN_txt (s : Str) (k : Nat) :
    flatten (formatToken defaultTextHandler [] none true (canonN (.txt s)) k) =
      serCanonN (.txt s) := by
  simp [canonN, formatToken, defaultTextHandler, flatten, flattenL, serCanonN]

theorem flattenFmtN_tag (nm : Str) (attrs : List SAttr) (sc : Bool)
    (ch : SForest)
    (IH : ∀ k2, flattenL (formatChildren defaultTextHandler [] none true
      (canonF ch) k2) = serCanonF ch) (k : Nat) :
    flatten (formatToken defaultTextHandler [] none true
      (canonN (.tag nm attrs sc ch)) k) = serCanonN (.tag nm attrs sc ch) := by
  simp only [canonN, formatToken, lookupA, tagTokenToString]
  rw [attrsToString_isEmpty, attrsPairs_isEmpty, formatChildren_isEmpty]
  cases ch with
  | nil =>
    cases hA : attrs.isEmpty <;>
      simp [canonF, formatChildren, flatten, flattenL, serCanonN, hA,
        flattenL_append]
  | cons n f =>
    have hiE : (canonF (.cons n f)).isEmpty = false := by
      simp [canonF]
    rw [hiE]
    generalize hE : formatChildren defaultTextHandler [] none true
      (canonF (SForest.cons n f)) 0 = elems
    have hIH : flattenL elems = serCanonF (SForest.cons n f) := by
      rw [← hE]
      exact IH 0
    simp only [Bool.not_false, if_true, List.append_eq, List.nil_append,
      flatten, flattenL_append, flattenL, List.append_nil]
    rw [hIH]
    cases hA : attrs.isEmpty <;> simp [serCanonN, hA, List.append_assoc]

theorem flattenFmtF_nil (k : Nat) :
    flattenL (formatChildren defaultTextHandler [] none true (canonF .nil) k) =
      serCanonF .nil := by
  simp [canonF, formatChildren, flattenL, serCanonF]

theorem flattenFmtF_cons (n : SNode) (f : SForest)
    (IHn : ∀ k2, flatten (formatToken defaultTextHandler [] none true
      (canonN n) k2) = serCanonN n)
    (IHf : ∀ k2, flattenL (formatChildren defaultTextHandler [] none true
      (canonF f) k2) = serCanonF f) (k : Nat) :
    flattenL (formatChildren defaultTextHandler [] none true
      (canonF (.cons n f)) k) = serCanonF (.cons n f) := by
  simp [canonF, formatChildren, flattenL, serCanonF, IHn k, IHf (k + 1)]

mutual
/-- Literal-markup formatting of a canonical node flattens to its canonical
serialization. -/
theorem flatten_formatN (n : SNode) :
    ∀ k, flatten (formatToken defaultTextHandler [] none true (canonN n) k) =
      serCanonN n :=
  match n with
  | .txt s => flattenFmtN_txt s
  | .tag nm attrs sc ch => flattenFmtN_tag nm attrs sc ch (flatten_formatF ch)

/-- Literal-markup formatting of a canonical forest flattens to its
canonical serialization. -/
theorem flatten_formatF (F : SForest) :
    ∀ k, flattenL (formatChildren defaultTextHandler [] none true (canonF F) k) =
      serCanonF F :=
  match F with
  | .nil => flattenFmtF_nil
  | .cons n f => flattenFmtF_cons n f (flatten_formatN n) (flatten_formatF f)
end

/-- **C5.** For every well-formed input (modelled as the serialization of a
well-formed source forest: every opened tag properly closed or explicitly
self-closed, no stray `<`, quoted attributes), parsing succeeds and returns
the canonical token forest, and formatting that result with
`keepUnknownTags = true` and no tag handlers (literal-markup synthesis)
reproduces the original tag structure with canonical upper-case names and
each attribute re-emitted in its original insertion order and double-quoted,
regardless of whether the input used single or double quotes. -/
theorem c5_wellformed_roundtrip (F : SForest) (hwf : wfF F = true) :
    parse (serF F) (fuelF F + 1) = .ok (canonF F) ∧
    flatten (formatTop defaultTextHandler [] none true (canonF F)) =
      serCanonF F := by
  refine ⟨parse_ser F hwf, ?_⟩
  simpa only [formatTop, flatten] using flatten_formatF F 0

theorem c5_witness :
    wfF exForest = true ∧
    (parse (serF exForest) (fuelF exForest + 1) = .ok (canonF exForest) ∧
     flatten (formatTop defaultTextHandler [] none true (canonF exForest)) =
       serCanonF exForest) :=
  ⟨by decide, c5_wellformed_roundtrip exForest (by decide)⟩

end RHF
